import Mathlib

/-!
Verification of the step-dispatch and deferred-completion engine of
pytorch-pfn-extras: class Handler in pytorch_pfn_extras/handler/_handler.py.

The embedding models the Handler as an explicit state machine.  External
collaborators (Runtime, Logic, the reporting sink) are pure interface
boundaries here: their hook invocations have no effect on Handler state, and
the output of Logic.train_step / Logic.eval_step is supplied to the embedded
step functions as a parameter.  Side effects that the claims talk about
(optimizer stepping via Logic.train_step_optimizers, completion-callback
invocations, DeferredResult.done and DeferredResult.wait calls) are recorded
as an event trace.

A DeferredResult is modelled by the pair (readyAt, val): done() is true once
the Handler clock has reached readyAt, wait() blocks until ready, get()
yields val.  The clock ticks once at the start of every train_step/eval_step
call, so quantifying over readyAt values quantifies over all (monotone)
completion patterns, including completion in an order different from
submission order.

pending_iters is a collections.defaultdict(list) keyed by partition name; it
is modelled as an insertion-ordered association list, with the defaultdict
behaviour (a read of a missing key inserts an empty list) made explicit.
Exceptions are modelled by the error field of StepRes: the state at the
raise point and the events emitted before it are kept.
-/

namespace PpeHandler

/-- A named model partition: one of the (name, module, runtime) triples
yielded by module discovery (Handler._runtime_iterator).  Modules and
runtimes are identified by opaque numeric ids. -/
structure Partition where
  name : String
  module : Nat
  runtime : Nat
deriving DecidableEq, Repr

/-- A DeferredResult handle: done() is true once the Handler clock has
reached readyAt; get() then yields val; wait() blocks until ready. -/
structure DRes where
  readyAt : Nat
  val : Nat
deriving DecidableEq, Repr

/-- One value of an output dict: either a plain (already computed) value or
a DeferredResult. -/
inductive OutElem where
  | plain (v : Nat)
  | defr (d : DRes)
deriving DecidableEq, Repr

/-- A step output as produced by Logic.train_step / Logic.eval_step: a plain
non-deferred value, a bare DeferredResult, or a dict mixing plain values and
DeferredResults. -/
inductive Outs where
  | value (v : Nat)
  | single (d : DRes)
  | odict (entries : List (String × OutElem))
deriving DecidableEq, Repr

/-- _DeferredIteration: the record appended to a partition's pending queue.
cbackId identifies the complete_fn passed to the submitting step call. -/
structure PendingIter where
  deferred : Outs
  idx : Nat
  batch : Nat
  cbackId : Nat
deriving DecidableEq, Repr

/-- The errors of the spec taxonomy plus the implicit failure modes of the
code.  configurationError and concurrencyConfigurationError are the two
RuntimeError raises of _handler.py (distinguished by message there);
indexError is the IndexError of reading the head of a missing or empty
pending queue; fuelExhausted marks non-termination of a drain loop (both
only reachable from states the Handler itself never produces). -/
inductive HErr where
  | configurationError
  | concurrencyConfigurationError
  | indexError
  | fuelExhausted
deriving DecidableEq, Repr

/-- Observable side effects, in program order.  doneCheck and waitCall are
the DeferredResult polls; optStep is Logic.train_step_optimizers for a batch
index; callback is an invocation of a complete_fn — isDef is the is_deferred
keyword argument, none when the call site omits it; initModule is
rt.initialize_module(sm, load, optim) during setup. -/
inductive Event where
  | doneCheck (d : DRes) (result : Bool)
  | waitCall (d : DRes)
  | optStep (idx : Nat)
  | callback (cbackId : Nat) (idx : Nat) (outs : Option Outs) (isDef : Option Bool)
  | initModule (name : String) (module runtime : Nat) (load optim : Option Nat)
deriving DecidableEq, Repr

/-- Handler state: the memoized module registry (_ppe_modules), the
per-partition pending queues (pending_iters) as an insertion-ordered
association list, and the clock that drives DeferredResult readiness. -/
structure HState where
  ppeModules : List Partition
  pendingIters : List (String × List PendingIter)
  clock : Nat
deriving DecidableEq, Repr

/-- Result of one Handler operation: post state (at the raise point when an
exception is modelled), emitted events, and the optional error. -/
structure StepRes where
  state : HState
  events : List Event
  error : Option HErr
deriving DecidableEq, Repr

/-! ### The pending-queue dictionary -/

/-- Value lookup in pending_iters with the defaultdict default: a missing
key reads as the empty list. -/
def lookupQ : List (String × List PendingIter) → String → List PendingIter
  | [], _ => []
  | (k, q) :: rest, n => if k = n then q else lookupQ rest n

/-- Key-membership test for pending_iters. -/
def containsQ : List (String × List PendingIter) → String → Bool
  | [], _ => false
  | (k, _) :: rest, n => k = n || containsQ rest n

/-- Store a value under a key: replace in place when the key exists,
append at the end otherwise (Python dict insertion order). -/
def setQ : List (String × List PendingIter) → String → List PendingIter →
    List (String × List PendingIter)
  | [], n, q => [(n, q)]
  | (k, q0) :: rest, n, q =>
    if k = n then (n, q) :: rest else (k, q0) :: setQ rest n q

/-- Delete a key (del self.pending_iters[sn]). -/
def delQ : List (String × List PendingIter) → String →
    List (String × List PendingIter)
  | [], _ => []
  | (k, q) :: rest, n => if k = n then delQ rest n else (k, q) :: delQ rest n

/-- The defaultdict side effect of reading a missing key: inserts the empty
list.  Applied on the paths where the read then fails with IndexError. -/
def touchQ (m : List (String × List PendingIter)) (n : String) :
    List (String × List PendingIter) :=
  if containsQ m n then m else m ++ [(n, [])]

/-- The pending_iters dictionary holding exactly the queue q (if non-empty)
under key n: the shape every reachable single-partition state has. -/
def pqOf (n : String) (q : List PendingIter) : List (String × List PendingIter) :=
  if q.isEmpty then [] else [(n, q)]

/-- Total number of pending iterations across all queues. -/
def totalPending (s : HState) : Nat :=
  (s.pendingIters.map (fun pr => pr.2.length)).sum

/-! ### Embedded Handler methods -/

/-- Handler._are_outs_deferred: true when the output is a DeferredResult or
a dict with at least one DeferredResult value. -/
def areOutsDeferred : Outs → Bool
  | .value _ => false
  | .single _ => true
  | .odict es => es.any (fun e => match e.2 with | .defr _ => true | _ => false)

/-- The dict branch of Handler._get_deferred_outputs: walk the entries in
order; plain values pass through; a DeferredResult is polled with done(),
then — if not done — either waited on (wait=true) or the whole resolution is
aborted with none (wait=false), discarding the partial result. -/
def resolveDict (clock : Nat) (wait : Bool) :
    List (String × OutElem) → Option (List (String × Nat)) × List Event
  | [] => (some [], [])
  | (k, e) :: rest =>
    match e with
    | .plain v =>
      let r := resolveDict clock wait rest
      (r.1.map (fun l => (k, v) :: l), r.2)
    | .defr d =>
      let isDone := decide (d.readyAt ≤ clock)
      if !isDone && wait then
        let r := resolveDict clock wait rest
        (r.1.map (fun l => (k, d.val) :: l),
          Event.doneCheck d isDone :: Event.waitCall d :: r.2)
      else if !isDone then
        (none, [Event.doneCheck d isDone])
      else
        let r := resolveDict clock wait rest
        (r.1.map (fun l => (k, d.val) :: l), Event.doneCheck d isDone :: r.2)

/-- Handler._get_deferred_outputs: resolve a pending iteration's output.
Returns the resolved outputs (none when not ready) plus the poll events.
The .value case cannot arise for an enqueued iteration (train_step and
eval_step only enqueue when _are_outs_deferred holds); the real code would
raise AttributeError there. -/
def getDeferredOutputs (clock : Nat) (p : PendingIter) (wait : Bool) :
    Option Outs × List Event :=
  match p.deferred with
  | .odict es =>
    let r := resolveDict clock wait es
    (r.1.map (fun l => Outs.odict (l.map (fun kv => (kv.1, OutElem.plain kv.2)))), r.2)
  | .single d =>
    let isDone := decide (d.readyAt ≤ clock)
    if !isDone && wait then
      (some (Outs.value d.val), [Event.doneCheck d isDone, Event.waitCall d])
    else if isDone then
      (some (Outs.value d.val), [Event.doneCheck d isDone])
    else
      (none, [Event.doneCheck d isDone])
  | .value _ => (none, [])

/-- Handler._runtime_iterator: when the memoized registry is empty, traverse
the models (the traversal's yield is the models argument itself, since
named_runtime_modules is an external collaborator) and append every
discovered partition to the registry; otherwise yield the cached registry.
Returns (yielded list, updated registry). -/
def runtimeIterator (ppeModules : List Partition) (models : List Partition) :
    List Partition × List Partition :=
  if ppeModules.isEmpty then (models, ppeModules ++ models)
  else (ppeModules, ppeModules)

/-- The optimizer-resolution rule of Handler._setup:
optim = optimizers.get(sn, None); if optim is None and len(optimizers) == 1,
fall back to the sole optimizer. -/
def resolveOptim (optimizers : List (String × Nat)) (sn : String) : Option Nat :=
  let optim := (optimizers.find? (fun kv => kv.1 = sn)).map (fun kv => kv.2)
  if optim.isNone && optimizers.length == 1 then
    optimizers.head?.map (fun kv => kv.2)
  else optim

/-- The loader argument of Handler._setup: either a single loader (then a
dict mapping every discovered partition name to it is built) or already a
dict of per-partition loaders. -/
inductive LoaderArg where
  | singleLoader (l : Nat)
  | perModule (m : List (String × Nat))
deriving DecidableEq, Repr

/-- Assoc lookup for the loaders and optimizers dicts. -/
def lookupA (m : List (String × Nat)) (k : String) : Option Nat :=
  (m.find? (fun kv => kv.1 = k)).map (fun kv => kv.2)

/-- Handler._setup: build the loaders dict (running the runtime iterator
when the loader is not a dict), then for every discovered partition call
rt.initialize_module(sm, load, optim) with the resolved optimizer; finally
raise ConfigurationError when the registry is still empty. -/
def setupH (s : HState) (models : List Partition) (loader : LoaderArg)
    (optimizers : List (String × Nat)) : StepRes :=
  let lc : List (String × Nat) × List Partition :=
    match loader with
    | .singleLoader l =>
      let it := runtimeIterator s.ppeModules models
      ((it.1.map (fun pt => (pt.name, l))), it.2)
    | .perModule m => (m, s.ppeModules)
  let it2 := runtimeIterator lc.2 models
  let initEvents := it2.1.map (fun pt =>
    Event.initModule pt.name pt.module pt.runtime
      (lookupA lc.1 pt.name) (resolveOptim optimizers pt.name))
  let s2 : HState := { s with ppeModules := it2.2 }
  if it2.2.length == 0 then
    { state := s2, events := initEvents, error := some HErr.configurationError }
  else
    { state := s2, events := initEvents, error := none }

/-- Handler.train_setup: set the models to training mode (a module-local
flag with no Handler-state effect, not modelled) and run _setup with the
trainer's optimizers. -/
def trainSetup (s : HState) (models : List Partition) (loader : LoaderArg)
    (optimizers : List (String × Nat)) : StepRes :=
  setupH s models loader optimizers

/-- Handler.eval_setup: set the models to eval mode and run _setup with no
optimizers. -/
def evalSetup (s : HState) (models : List Partition) (loader : LoaderArg) : StepRes :=
  setupH s models loader []

/-- The hook-only Handler methods (train_epoch_begin, train_validation_begin,
train_validation_end, train_post_step, eval_post_step): they iterate the
runtime iterator (possibly populating the registry) and invoke external
hooks, with no other Handler-state effect. -/
def hookPass (s : HState) (models : List Partition) : StepRes :=
  let it := runtimeIterator s.ppeModules models
  { state := { s with ppeModules := it.2 }, events := [], error := none }

/-- Handler._complete_train_step: read the head of the partition's pending
queue (defaultdict read: a missing key inserts an empty list, then the
index raises), slice it off, run Logic.train_step_optimizers for the head's
batch index, delete the queue when it became empty, and invoke the head's
callback with is_deferred=block. -/
def completeTrainStep (s : HState) (sn : String) (touts : Option Outs)
    (block : Bool) : StepRes :=
  match (lookupQ s.pendingIters sn).head? with
  | none =>
    { state := { s with pendingIters := touchQ s.pendingIters sn },
      events := [], error := some HErr.indexError }
  | some p =>
    let q1 := (lookupQ s.pendingIters sn).tail
    let m1 := setQ s.pendingIters sn q1
    let m2 := if q1.isEmpty then delQ m1 sn else m1
    { state := { s with pendingIters := m2 },
      events := [Event.optStep p.idx,
                 Event.callback p.cbackId p.idx touts (some block)],
      error := none }

/-- Handler._complete_eval_step: like _complete_train_step but with no
optimizer stepping. -/
def completeEvalStep (s : HState) (sn : String) (touts : Option Outs)
    (block : Bool) : StepRes :=
  match (lookupQ s.pendingIters sn).head? with
  | none =>
    { state := { s with pendingIters := touchQ s.pendingIters sn },
      events := [], error := some HErr.indexError }
  | some p =>
    let q1 := (lookupQ s.pendingIters sn).tail
    let m1 := setQ s.pendingIters sn q1
    let m2 := if q1.isEmpty then delQ m1 sn else m1
    { state := { s with pendingIters := m2 },
      events := [Event.callback p.cbackId p.idx touts (some block)],
      error := none }

/-- The deferred branch of Handler.train_step, one runtime-iterator element
at a time: append the new _DeferredIteration to the partition's queue, poll
the queue head without waiting, and commit it iff it resolved. -/
def deferredLoopTrain (outs : Outs) (batchIdx batch cbackId : Nat) :
    List Partition → HState → StepRes
  | [], s => { state := s, events := [], error := none }
  | pt :: rest, s =>
    let q := lookupQ s.pendingIters pt.name ++ [⟨outs, batchIdx, batch, cbackId⟩]
    let s1 : HState := { s with pendingIters := setQ s.pendingIters pt.name q }
    match (lookupQ s1.pendingIters pt.name).head? with
    | none =>
      { state := { s1 with pendingIters := touchQ s1.pendingIters pt.name },
        events := [], error := some HErr.indexError }
    | some h =>
      let gd := getDeferredOutputs s1.clock h false
      match gd.1 with
      | some touts =>
        let r := completeTrainStep s1 pt.name (some touts) false
        match r.error with
        | some _ => { state := r.state, events := gd.2 ++ r.events, error := r.error }
        | none =>
          let r2 := deferredLoopTrain outs batchIdx batch cbackId rest r.state
          { state := r2.state, events := gd.2 ++ r.events ++ r2.events,
            error := r2.error }
      | none =>
        let r2 := deferredLoopTrain outs batchIdx batch cbackId rest s1
        { state := r2.state, events := gd.2 ++ r2.events, error := r2.error }

/-- Handler.train_step.  The clock ticks at entry (time passes between
public calls).  Pre-step hooks and convert_batch are external collaborator
calls with no Handler-state effect beyond the registry population of the
runtime iterator; the Logic's step output is the outs parameter.  A deferred
output with a registry of size other than one raises the
ConcurrencyConfigurationError before touching any pending queue; otherwise
the deferred branch appends and polls per partition.  A synchronous output
commits immediately: optimizer stepping, then complete_fn(batch_idx, outs)
with the is_deferred keyword omitted. -/
def trainStep (s0 : HState) (models : List Partition)
    (batchIdx batch cbackId : Nat) (outs : Outs) : StepRes :=
  let sc : HState := { s0 with clock := s0.clock + 1 }
  let it1 := runtimeIterator sc.ppeModules models
  let s : HState := { sc with ppeModules := it1.2 }
  if areOutsDeferred outs then
    if s.ppeModules.length ≠ 1 then
      { state := s, events := [], error := some HErr.concurrencyConfigurationError }
    else
      let it2 := runtimeIterator s.ppeModules models
      deferredLoopTrain outs batchIdx batch cbackId it2.1
        { s with ppeModules := it2.2 }
  else
    { state := s,
      events := [Event.optStep batchIdx,
                 Event.callback cbackId batchIdx (some outs) none],
      error := none }

/-- The deferred branch of Handler.eval_step, mirroring deferredLoopTrain
with the eval commit (no optimizer stepping). -/
def deferredLoopEval (outs : Outs) (batchIdx batch cbackId : Nat) :
    List Partition → HState → StepRes
  | [], s => { state := s, events := [], error := none }
  | pt :: rest, s =>
    let q := lookupQ s.pendingIters pt.name ++ [⟨outs, batchIdx, batch, cbackId⟩]
    let s1 : HState := { s with pendingIters := setQ s.pendingIters pt.name q }
    match (lookupQ s1.pendingIters pt.name).head? with
    | none =>
      { state := { s1 with pendingIters := touchQ s1.pendingIters pt.name },
        events := [], error := some HErr.indexError }
    | some h =>
      let gd := getDeferredOutputs s1.clock h false
      match gd.1 with
      | some touts =>
        let r := completeEvalStep s1 pt.name (some touts) false
        match r.error with
        | some _ => { state := r.state, events := gd.2 ++ r.events, error := r.error }
        | none =>
          let r2 := deferredLoopEval outs batchIdx batch cbackId rest r.state
          { state := r2.state, events := gd.2 ++ r.events ++ r2.events,
            error := r2.error }
      | none =>
        let r2 := deferredLoopEval outs batchIdx batch cbackId rest s1
        { state := r2.state, events := gd.2 ++ r2.events, error := r2.error }

/-- Handler.eval_step: like train_step, but a synchronous output commits
with just complete_fn(batch_idx, outs) — no optimizer stepping — and the
deferred commit path uses _complete_eval_step. -/
def evalStep (s0 : HState) (models : List Partition)
    (batchIdx batch cbackId : Nat) (outs : Outs) : StepRes :=
  let sc : HState := { s0 with clock := s0.clock + 1 }
  let it1 := runtimeIterator sc.ppeModules models
  let s : HState := { sc with ppeModules := it1.2 }
  if areOutsDeferred outs then
    if s.ppeModules.length ≠ 1 then
      { state := s, events := [], error := some HErr.concurrencyConfigurationError }
    else
      let it2 := runtimeIterator s.ppeModules models
      deferredLoopEval outs batchIdx batch cbackId it2.1
        { s with ppeModules := it2.2 }
  else
    { state := s,
      events := [Event.callback cbackId batchIdx (some outs) none],
      error := none }

/-- One pass of the while loop of Handler.train_epoch_end over the runtime
iterator: for each partition, read its queue head (defaultdict read), block
on its resolution (wait=True), and commit it. -/
def drainListTrain : List Partition → HState → StepRes
  | [], s => { state := s, events := [], error := none }
  | pt :: rest, s =>
    if containsQ s.pendingIters pt.name then
      match (lookupQ s.pendingIters pt.name).head? with
      | none => { state := s, events := [], error := some HErr.indexError }
      | some h =>
        let gd := getDeferredOutputs s.clock h true
        let r := completeTrainStep s pt.name gd.1 true
        match r.error with
        | some _ => { state := r.state, events := gd.2 ++ r.events, error := r.error }
        | none =>
          let r2 := drainListTrain rest r.state
          { state := r2.state, events := gd.2 ++ r.events ++ r2.events,
            error := r2.error }
    else
      { state := { s with pendingIters := touchQ s.pendingIters pt.name },
        events := [], error := some HErr.indexError }

/-- The while loop of Handler.train_epoch_end, with an explicit fuel bound
on the number of passes; running out of fuel models non-termination (a pass
that pops nothing, only possible from states the Handler never produces). -/
def drainTrainLoop : Nat → HState → List Partition → StepRes
  | 0, s, _ =>
    if s.pendingIters.isEmpty then { state := s, events := [], error := none }
    else { state := s, events := [], error := some HErr.fuelExhausted }
  | fuel + 1, s, models =>
    if s.pendingIters.isEmpty then { state := s, events := [], error := none }
    else
      let it := runtimeIterator s.ppeModules models
      let r := drainListTrain it.1 { s with ppeModules := it.2 }
      match r.error with
      | some _ => r
      | none =>
        let r2 := drainTrainLoop fuel r.state models
        { state := r2.state, events := r.events ++ r2.events, error := r2.error }

/-- Handler.train_epoch_end: the blocking drain (Logic.train_epoch_end, an
external call after the loop, is not modelled).  A single-partition drain
pops one iteration per pass, so totalPending + 1 passes always suffice. -/
def trainEpochEnd (s : HState) (models : List Partition) : StepRes :=
  drainTrainLoop (totalPending s + 1) s models

/-- One pass of the while loop of Handler.eval_loop_end. -/
def drainListEval : List Partition → HState → StepRes
  | [], s => { state := s, events := [], error := none }
  | pt :: rest, s =>
    if containsQ s.pendingIters pt.name then
      match (lookupQ s.pendingIters pt.name).head? with
      | none => { state := s, events := [], error := some HErr.indexError }
      | some h =>
        let gd := getDeferredOutputs s.clock h true
        let r := completeEvalStep s pt.name gd.1 true
        match r.error with
        | some _ => { state := r.state, events := gd.2 ++ r.events, error := r.error }
        | none =>
          let r2 := drainListEval rest r.state
          { state := r2.state, events := gd.2 ++ r.events ++ r2.events,
            error := r2.error }
    else
      { state := { s with pendingIters := touchQ s.pendingIters pt.name },
        events := [], error := some HErr.indexError }

/-- The while loop of Handler.eval_loop_end, fuelled like drainTrainLoop. -/
def drainEvalLoop : Nat → HState → List Partition → StepRes
  | 0, s, _ =>
    if s.pendingIters.isEmpty then { state := s, events := [], error := none }
    else { state := s, events := [], error := some HErr.fuelExhausted }
  | fuel + 1, s, models =>
    if s.pendingIters.isEmpty then { state := s, events := [], error := none }
    else
      let it := runtimeIterator s.ppeModules models
      let r := drainListEval it.1 { s with ppeModules := it.2 }
      match r.error with
      | some _ => r
      | none =>
        let r2 := drainEvalLoop fuel r.state models
        { state := r2.state, events := r.events ++ r2.events, error := r2.error }

/-- Handler.eval_loop_end: the blocking drain without optimizer stepping. -/
def evalLoopEnd (s : HState) (models : List Partition) : StepRes :=
  drainEvalLoop (totalPending s + 1) s models

/-! ### Trace projections and run combinators -/

/-- The batch indices of the complete_fn invocations of a trace, in order. -/
def cbIdxs (evs : List Event) : List Nat :=
  evs.filterMap (fun e => match e with
    | .callback _ i _ _ => some i
    | _ => none)

/-- The batch indices of the Logic.train_step_optimizers calls of a trace. -/
def optIdxs (evs : List Event) : List Nat :=
  evs.filterMap (fun e => match e with
    | .optStep i => some i
    | _ => none)

/-- The complete_fn invocations of a trace as (batch index, is_deferred)
pairs, in order. -/
def cbSeq (evs : List Event) : List (Nat × Option Bool) :=
  evs.filterMap (fun e => match e with
    | .callback _ i _ d => some (i, d)
    | _ => none)

/-- Number of DeferredResult.wait() calls in a trace. -/
def waitCount (evs : List Event) : Nat :=
  evs.countP (fun e => match e with | .waitCall _ => true | _ => false)

/-- Number of DeferredResult.done() polls in a trace. -/
def doneCount (evs : List Event) : Nat :=
  evs.countP (fun e => match e with | .doneCheck _ _ => true | _ => false)

/-- Number of deferred components of an output (1 for a bare DeferredResult,
the count of DeferredResult values for a dict). -/
def defCountOuts : Outs → Nat
  | .value _ => 0
  | .single _ => 1
  | .odict es => es.countP (fun e => match e.2 with | .defr _ => true | _ => false)

/-- The optimizer- and initialize-related part of a trace used by the setup
claim: for every initialize_module call, its partition name and the
optimizer it received. -/
def initOptims (evs : List Event) : List (String × Option Nat) :=
  evs.filterMap (fun e => match e with
    | .initModule n _ _ _ o => some (n, o)
    | _ => none)

/-- The _DeferredIteration appended for a submission. -/
def mkIter (o : Outs) (batchIdx batch cbackId : Nat) : PendingIter :=
  ⟨o, batchIdx, batch, cbackId⟩

/-- Sequencing of Handler operations: run the second from the first's post
state unless the first raised, concatenating traces. -/
def thenRun (r : StepRes) (f : HState → StepRes) : StepRes :=
  match r.error with
  | some _ => r
  | none =>
    let r2 := f r.state
    { state := r2.state, events := r.events ++ r2.events, error := r2.error }

/-- A submission: the batch and cbackId of a train_step call together with
the output the Logic produces for it. -/
def Submission : Type := Nat × Nat × Outs

/-- Run a sequence of train_step submissions, the i-th with batch index
i0 + i, stopping at the first raise. -/
def runTrainSubs (s : HState) (models : List Partition) (i0 : Nat) :
    List Submission → StepRes
  | [] => { state := s, events := [], error := none }
  | x :: rest =>
    let r := trainStep s models i0 x.1 x.2.1 x.2.2
    match r.error with
    | some _ => r
    | none =>
      let r2 := runTrainSubs r.state models (i0 + 1) rest
      { state := r2.state, events := r.events ++ r2.events, error := r2.error }

/-- The fresh Handler state: empty registry, no pending queues. -/
def initState : HState := { ppeModules := [], pendingIters := [], clock := 0 }

/-- A full single-partition training run: submit every step with batch
indices 0,1,2,... and then drain with train_epoch_end. -/
def fullTrainRun (p : Partition) (subs : List Submission) : StepRes :=
  thenRun (runTrainSubs initState [p] 0 subs) (fun s => trainEpochEnd s [p])

/-- The trace the epoch-end drain emits for one pending iteration: its
blocking (wait=True) resolution, the optimizer step for its batch index,
and its callback with is_deferred=True. -/
def drainItemEvsTrain (clock : Nat) (it : PendingIter) : List Event :=
  (getDeferredOutputs clock it true).2 ++
    [Event.optStep it.idx,
     Event.callback it.cbackId it.idx (getDeferredOutputs clock it true).1 (some true)]

/-- The trace the evaluation-loop-end drain emits for one pending
iteration: its blocking resolution and its callback with is_deferred=True
(no optimizer step). -/
def drainItemEvsEval (clock : Nat) (it : PendingIter) : List Event :=
  (getDeferredOutputs clock it true).2 ++
    [Event.callback it.cbackId it.idx (getDeferredOutputs clock it true).1 (some true)]

/-- The optimizer-resolution rule in the words of the specification: the
optimizer whose key equals the partition name if present; otherwise, if
exactly one optimizer exists overall, that sole optimizer; otherwise none. -/
def specResolveOptim (optimizers : List (String × Nat)) (sn : String) : Option Nat :=
  match lookupA optimizers sn with
  | some o => some o
  | none =>
    match optimizers with
    | [(_, o)] => some o
    | _ => none

/-- The states a Handler can be in: the fresh state, plus the normal-return
post state of any public operation. -/
inductive Reach : HState → Prop where
  | init : Reach initState
  | setupStep {s models loader optimizers} : Reach s →
      (trainSetup s models loader optimizers).error = none →
      Reach (trainSetup s models loader optimizers).state
  | evalSetupStep {s models loader} : Reach s →
      (evalSetup s models loader).error = none →
      Reach (evalSetup s models loader).state
  | hookStep {s models} : Reach s →
      (hookPass s models).error = none →
      Reach (hookPass s models).state
  | trainStepStep {s models i b cb o} : Reach s →
      (trainStep s models i b cb o).error = none →
      Reach (trainStep s models i b cb o).state
  | evalStepStep {s models i b cb o} : Reach s →
      (evalStep s models i b cb o).error = none →
      Reach (evalStep s models i b cb o).state
  | epochEndStep {s models} : Reach s →
      (trainEpochEnd s models).error = none →
      Reach (trainEpochEnd s models).state
  | evalLoopEndStep {s models} : Reach s →
      (evalLoopEnd s models).error = none →
      Reach (evalLoopEnd s models).state

/-! ### Small lemmas about the embedded operations -/

@[simp]
lemma runtimeIterator_nil (models : List Partition) :
    runtimeIterator [] models = (models, models) := by
  simp [runtimeIterator]

@[simp]
lemma runtimeIterator_cons (pt : Partition) (l models : List Partition) :
    runtimeIterator (pt :: l) models = (pt :: l, pt :: l) := by
  simp [runtimeIterator]

/-- A second run of the runtime iterator yields what the first cached. -/
lemma runtimeIterator_stable (c models : List Partition) :
    runtimeIterator (runtimeIterator c models).2 models = runtimeIterator c models := by
  cases c with
  | nil => cases models <;> simp
  | cons pt l => simp

@[simp]
lemma pqOf_nil (n : String) : pqOf n [] = [] := by simp [pqOf]

@[simp]
lemma pqOf_cons (n : String) (h : PendingIter) (t : List PendingIter) :
    pqOf n (h :: t) = [(n, h :: t)] := by simp [pqOf]

@[simp]
lemma lookupQ_pqOf_self (n : String) (q : List PendingIter) :
    lookupQ (pqOf n q) n = q := by
  cases q <;> simp [pqOf, lookupQ]

@[simp]
lemma setQ_pqOf_self (n : String) (q v : List PendingIter) :
    setQ (pqOf n q) n v = [(n, v)] := by
  cases q <;> simp [pqOf, setQ]

@[simp]
lemma lookupQ_single_self (n : String) (q : List PendingIter) :
    lookupQ [(n, q)] n = q := by simp [lookupQ]

@[simp]
lemma setQ_single_self (n : String) (q v : List PendingIter) :
    setQ [(n, q)] n v = [(n, v)] := by simp [setQ]

@[simp]
lemma delQ_single_self (n : String) (q : List PendingIter) :
    delQ [(n, q)] n = [] := by simp [delQ]

@[simp]
lemma containsQ_single_self (n : String) (q : List PendingIter) :
    containsQ [(n, q)] n = true := by simp [containsQ]

/-- Popping the head of the only queue leaves the dictionary in pqOf shape:
the queue entry is deleted exactly when its last element was removed. -/
lemma popShape (n : String) (q : List PendingIter) :
    (if q.isEmpty then delQ [(n, q)] n else [(n, q)]) = pqOf n q := by
  cases q <;> simp

@[simp]
lemma totalPending_pqOf (pm : List Partition) (n : String) (q : List PendingIter)
    (ck : Nat) :
    totalPending { ppeModules := pm, pendingIters := pqOf n q, clock := ck } = q.length := by
  cases q <;> simp [totalPending, pqOf]

/-! ### Trace-projection lemmas -/

@[simp]
lemma cbIdxs_append (a b : List Event) : cbIdxs (a ++ b) = cbIdxs a ++ cbIdxs b := by
  simp [cbIdxs, List.filterMap_append]

@[simp]
lemma optIdxs_append (a b : List Event) : optIdxs (a ++ b) = optIdxs a ++ optIdxs b := by
  simp [optIdxs, List.filterMap_append]

@[simp]
lemma cbSeq_append (a b : List Event) : cbSeq (a ++ b) = cbSeq a ++ cbSeq b := by
  simp [cbSeq, List.filterMap_append]

@[simp]
lemma waitCount_append (a b : List Event) :
    waitCount (a ++ b) = waitCount a + waitCount b := by
  simp [waitCount, List.countP_append]

@[simp]
lemma doneCount_append (a b : List Event) :
    doneCount (a ++ b) = doneCount a + doneCount b := by
  simp [doneCount, List.countP_append]

/-- Events that are DeferredResult polls: done() and wait() calls. -/
def isPoll : Event → Bool
  | .doneCheck _ _ => true
  | .waitCall _ => true
  | _ => false

lemma resolveDict_polls (c : Nat) (w : Bool) (es : List (String × OutElem)) :
    ∀ e ∈ (resolveDict c w es).2, isPoll e = true := by
  induction es with
  | nil => simp [resolveDict]
  | cons kv rest ih =>
    obtain ⟨k, e⟩ := kv
    cases e with
    | plain v => simpa [resolveDict] using ih
    | defr d =>
      by_cases hd : d.readyAt ≤ c
      · simpa [resolveDict, hd, isPoll] using ih
      · cases w <;> simp [resolveDict, hd, isPoll]
        exact ih

lemma getDeferredOutputs_polls (c : Nat) (p : PendingIter) (w : Bool) :
    ∀ e ∈ (getDeferredOutputs c p w).2, isPoll e = true := by
  cases hp : p.deferred with
  | odict es => simpa [getDeferredOutputs, hp] using resolveDict_polls c w es
  | single d =>
    by_cases hd : d.readyAt ≤ c <;> cases w <;>
      simp [getDeferredOutputs, hp, hd, isPoll]
  | value v => simp [getDeferredOutputs, hp]

lemma cbIdxs_of_polls {evs : List Event} (h : ∀ e ∈ evs, isPoll e = true) :
    cbIdxs evs = [] := by
  rw [cbIdxs, List.filterMap_eq_nil_iff]
  intro a ha
  have := h a ha
  cases a <;> simp_all [isPoll]

lemma optIdxs_of_polls {evs : List Event} (h : ∀ e ∈ evs, isPoll e = true) :
    optIdxs evs = [] := by
  rw [optIdxs, List.filterMap_eq_nil_iff]
  intro a ha
  have := h a ha
  cases a <;> simp_all [isPoll]

lemma cbSeq_of_polls {evs : List Event} (h : ∀ e ∈ evs, isPoll e = true) :
    cbSeq evs = [] := by
  rw [cbSeq, List.filterMap_eq_nil_iff]
  intro a ha
  have := h a ha
  cases a <;> simp_all [isPoll]

/-- A non-blocking resolution never calls wait(). -/
lemma resolveDict_no_wait (c : Nat) (es : List (String × OutElem)) :
    waitCount (resolveDict c false es).2 = 0 := by
  induction es with
  | nil => simp [resolveDict, waitCount]
  | cons kv rest ih =>
    obtain ⟨k, e⟩ := kv
    cases e with
    | plain v => simpa [resolveDict] using ih
    | defr d =>
      by_cases hd : d.readyAt ≤ c
      · simp only [resolveDict, hd]
        simpa [waitCount, List.countP_cons] using ih
      · simp [resolveDict, hd, waitCount, List.countP_cons]

lemma getDeferredOutputs_no_wait (c : Nat) (p : PendingIter) :
    waitCount (getDeferredOutputs c p false).2 = 0 := by
  cases hp : p.deferred with
  | odict es => simpa [getDeferredOutputs, hp] using resolveDict_no_wait c es
  | single d =>
    by_cases hd : d.readyAt ≤ c <;>
      simp [getDeferredOutputs, hp, hd, waitCount, List.countP_cons]
  | value v => simp [getDeferredOutputs, hp, waitCount]

/-- One done() poll at most per deferred component of the output. -/
lemma doneCount_resolveDict_le (c : Nat) (w : Bool) (es : List (String × OutElem)) :
    doneCount (resolveDict c w es).2
      ≤ es.countP (fun e => match e.2 with | .defr _ => true | _ => false) := by
  induction es with
  | nil => simp [resolveDict, doneCount]
  | cons kv rest ih =>
    obtain ⟨k, e⟩ := kv
    cases e with
    | plain v =>
      simpa [resolveDict, List.countP_cons] using ih
    | defr d =>
      by_cases hd : d.readyAt ≤ c
      · simpa [resolveDict, hd, doneCount, List.countP_cons] using ih
      · cases w
        · simp [resolveDict, hd, doneCount, List.countP_cons]
        · simpa [resolveDict, hd, doneCount, List.countP_cons] using ih

lemma doneCount_getDeferredOutputs_le (c : Nat) (p : PendingIter) (w : Bool) :
    doneCount (getDeferredOutputs c p w).2 ≤ defCountOuts p.deferred := by
  cases hp : p.deferred with
  | odict es =>
    simpa [getDeferredOutputs, hp, defCountOuts] using doneCount_resolveDict_le c w es
  | single d =>
    by_cases hd : d.readyAt ≤ c <;> cases w <;>
      simp [getDeferredOutputs, hp, hd, doneCount, defCountOuts, List.countP_cons]
  | value v => simp [getDeferredOutputs, hp, doneCount, defCountOuts]

/-! ### Characterization of train_step / eval_step on a single partition -/

/-- The deferred branch on one partition when the queue head does not
resolve: the new iteration is appended and nothing else happens. -/
lemma deferredLoopTrain_single_notReady (p : Partition) (s : HState)
    (q : List PendingIter) (o : Outs) (i b cb : Nat) (h : PendingIter)
    (hp : s.pendingIters = pqOf p.name q)
    (hh : (q ++ [mkIter o i b cb]).head? = some h)
    (hg : (getDeferredOutputs s.clock h false).1 = none) :
    deferredLoopTrain o i b cb [p] s =
      { state := { s with pendingIters := [(p.name, q ++ [mkIter o i b cb])] },
        events := (getDeferredOutputs s.clock h false).2,
        error := none } := by
  simp only [deferredLoopTrain, hp, lookupQ_pqOf_self, setQ_pqOf_self,
    lookupQ_single_self, mkIter] at *
  rw [hh]
  simp only [hg]
  simp

/-- The deferred branch on one partition when the queue head resolves: the
new iteration is appended, then the head is popped and committed with
is_deferred=False after its optimizer step. -/
lemma deferredLoopTrain_single_ready (p : Partition) (s : HState)
    (q : List PendingIter) (o : Outs) (i b cb : Nat) (h : PendingIter) (t : Outs)
    (hp : s.pendingIters = pqOf p.name q)
    (hh : (q ++ [mkIter o i b cb]).head? = some h)
    (hg : (getDeferredOutputs s.clock h false).1 = some t) :
    deferredLoopTrain o i b cb [p] s =
      { state := { s with
          pendingIters := pqOf p.name (q ++ [mkIter o i b cb]).tail },
        events := (getDeferredOutputs s.clock h false).2 ++
          [Event.optStep h.idx,
           Event.callback h.cbackId h.idx (some t) (some false)],
        error := none } := by
  simp only [deferredLoopTrain, hp, lookupQ_pqOf_self, setQ_pqOf_self,
    lookupQ_single_self, mkIter] at *
  rw [hh]
  simp only [hg, completeTrainStep, lookupQ_single_self]
  rw [hh]
  simp only [setQ_single_self]
  rw [popShape]
  simp

/-- eval_step variant of deferredLoopTrain_single_notReady. -/
lemma deferredLoopEval_single_notReady (p : Partition) (s : HState)
    (q : List PendingIter) (o : Outs) (i b cb : Nat) (h : PendingIter)
    (hp : s.pendingIters = pqOf p.name q)
    (hh : (q ++ [mkIter o i b cb]).head? = some h)
    (hg : (getDeferredOutputs s.clock h false).1 = none) :
    deferredLoopEval o i b cb [p] s =
      { state := { s with pendingIters := [(p.name, q ++ [mkIter o i b cb])] },
        events := (getDeferredOutputs s.clock h false).2,
        error := none } := by
  simp only [deferredLoopEval, hp, lookupQ_pqOf_self, setQ_pqOf_self,
    lookupQ_single_self, mkIter] at *
  rw [hh]
  simp only [hg]
  simp

/-- eval_step variant of deferredLoopTrain_single_ready: the commit invokes
the callback only (no optimizer step). -/
lemma deferredLoopEval_single_ready (p : Partition) (s : HState)
    (q : List PendingIter) (o : Outs) (i b cb : Nat) (h : PendingIter) (t : Outs)
    (hp : s.pendingIters = pqOf p.name q)
    (hh : (q ++ [mkIter o i b cb]).head? = some h)
    (hg : (getDeferredOutputs s.clock h false).1 = some t) :
    deferredLoopEval o i b cb [p] s =
      { state := { s with
          pendingIters := pqOf p.name (q ++ [mkIter o i b cb]).tail },
        events := (getDeferredOutputs s.clock h false).2 ++
          [Event.callback h.cbackId h.idx (some t) (some false)],
        error := none } := by
  simp only [deferredLoopEval, hp, lookupQ_pqOf_self, setQ_pqOf_self,
    lookupQ_single_self, mkIter] at *
  rw [hh]
  simp only [hg, completeEvalStep, lookupQ_single_self]
  rw [hh]
  simp only [setQ_single_self]
  rw [popShape]
  simp

/-- train_step with a deferred output on a single-partition Handler reduces
to the deferred loop on that partition, after the clock tick. -/
lemma trainStep_deferred_eq (p : Partition) (s : HState)
    (i b cb : Nat) (o : Outs)
    (hm : s.ppeModules = [] ∨ s.ppeModules = [p])
    (ho : areOutsDeferred o = true) :
    trainStep s [p] i b cb o =
      deferredLoopTrain o i b cb [p]
        { ppeModules := [p], pendingIters := s.pendingIters,
          clock := s.clock + 1 } := by
  obtain ⟨pm, pi, ck⟩ := s
  rcases hm with hm | hm <;> simp only at hm <;> subst hm <;>
    simp [trainStep, ho]

/-- eval_step variant of trainStep_deferred_eq. -/
lemma evalStep_deferred_eq (p : Partition) (s : HState)
    (i b cb : Nat) (o : Outs)
    (hm : s.ppeModules = [] ∨ s.ppeModules = [p])
    (ho : areOutsDeferred o = true) :
    evalStep s [p] i b cb o =
      deferredLoopEval o i b cb [p]
        { ppeModules := [p], pendingIters := s.pendingIters,
          clock := s.clock + 1 } := by
  obtain ⟨pm, pi, ck⟩ := s
  rcases hm with hm | hm <;> simp only at hm <;> subst hm <;>
    simp [evalStep, ho]

/-- Any non-empty queue has a head. -/
lemma exists_head_append (q : List PendingIter) (x : PendingIter) :
    ∃ h, (q ++ [x]).head? = some h := by
  cases q <;> simp

/-- What one deferred train_step does to a single-partition Handler, at the
level claims talk about: it never raises, the submitted index joins the
callback order exactly once (either committed now as the head, or left in
the queue), and optimizer-step order equals callback order. -/
lemma trainStep_single_spec (p : Partition) (s : HState) (q : List PendingIter)
    (i b cb : Nat) (o : Outs)
    (hm : s.ppeModules = [] ∨ s.ppeModules = [p])
    (hp : s.pendingIters = pqOf p.name q)
    (ho : areOutsDeferred o = true) :
    (trainStep s [p] i b cb o).error = none
    ∧ (trainStep s [p] i b cb o).state.ppeModules = [p]
    ∧ (trainStep s [p] i b cb o).state.clock = s.clock + 1
    ∧ ∃ q', (trainStep s [p] i b cb o).state.pendingIters = pqOf p.name q'
        ∧ cbIdxs (trainStep s [p] i b cb o).events ++ q'.map PendingIter.idx
            = q.map PendingIter.idx ++ [i]
        ∧ optIdxs (trainStep s [p] i b cb o).events
            = cbIdxs (trainStep s [p] i b cb o).events := by
  rw [trainStep_deferred_eq p s i b cb o hm ho]
  set s1 : HState :=
    { ppeModules := [p], pendingIters := s.pendingIters, clock := s.clock + 1 }
    with hs1
  have hp1 : s1.pendingIters = pqOf p.name q := hp
  obtain ⟨h, hh⟩ := exists_head_append q (mkIter o i b cb)
  have hht : h :: (q ++ [mkIter o i b cb]).tail = q ++ [mkIter o i b cb] :=
    List.cons_head?_tail (by rw [hh]; rfl)
  rcases hg : (getDeferredOutputs s1.clock h false).1 with _ | t
  · rw [deferredLoopTrain_single_notReady p s1 q o i b cb h hp1 hh hg]
    refine ⟨rfl, rfl, rfl, q ++ [mkIter o i b cb], ?_, ?_, ?_⟩
    · simp [pqOf]
    · rw [cbIdxs_of_polls (getDeferredOutputs_polls s1.clock h false)]
      simp [mkIter]
    · rw [cbIdxs_of_polls (getDeferredOutputs_polls s1.clock h false),
        optIdxs_of_polls (getDeferredOutputs_polls s1.clock h false)]
  · rw [deferredLoopTrain_single_ready p s1 q o i b cb h t hp1 hh hg]
    refine ⟨rfl, rfl, rfl, (q ++ [mkIter o i b cb]).tail, rfl, ?_, ?_⟩
    · simp only [cbIdxs_append,
        cbIdxs_of_polls (getDeferredOutputs_polls s1.clock h false)]
      have : cbIdxs [Event.optStep h.idx,
          Event.callback h.cbackId h.idx (some t) (some false)] = [h.idx] := by
        simp [cbIdxs]
      rw [this]
      have hmap := congrArg (List.map PendingIter.idx) hht
      simp only [List.map_cons, List.map_append] at hmap
      simpa [mkIter] using hmap
    · simp only [optIdxs_append, cbIdxs_append,
        cbIdxs_of_polls (getDeferredOutputs_polls s1.clock h false),
        optIdxs_of_polls (getDeferredOutputs_polls s1.clock h false)]
      simp [cbIdxs, optIdxs]

/-- Running a sequence of deferred submissions from a single-partition
state: no raise, and the invariant that callback order so far followed by
the queue contents equals the full submission order. -/
lemma runTrainSubs_spec (p : Partition) :
    ∀ (subs : List Submission) (s : HState) (q : List PendingIter) (i0 : Nat),
    s.ppeModules = [] ∨ s.ppeModules = [p] →
    s.pendingIters = pqOf p.name q →
    (∀ x ∈ subs, areOutsDeferred x.2.2 = true) →
    (runTrainSubs s [p] i0 subs).error = none
    ∧ ((runTrainSubs s [p] i0 subs).state.ppeModules = [] ∨
        (runTrainSubs s [p] i0 subs).state.ppeModules = [p])
    ∧ ∃ q', (runTrainSubs s [p] i0 subs).state.pendingIters = pqOf p.name q'
        ∧ cbIdxs (runTrainSubs s [p] i0 subs).events ++ q'.map PendingIter.idx
            = q.map PendingIter.idx ++ List.range' i0 subs.length
        ∧ optIdxs (runTrainSubs s [p] i0 subs).events
            = cbIdxs (runTrainSubs s [p] i0 subs).events := by
  intro subs
  induction subs with
  | nil =>
    intro s q i0 hm hp _
    refine ⟨rfl, hm, q, hp, ?_, rfl⟩
    simp [runTrainSubs, cbIdxs]
  | cons x rest ih =>
    intro s q i0 hm hp hall
    obtain ⟨he, hpm, hck, q1, hq1, hcb1, hopt1⟩ :=
      trainStep_single_spec p s q i0 x.1 x.2.1 x.2.2 hm hp
        (hall x (by simp))
    obtain ⟨he2, hm2, q2, hq2, hcb2, hopt2⟩ :=
      ih (trainStep s [p] i0 x.1 x.2.1 x.2.2).state q1 (i0 + 1)
        (Or.inr hpm) hq1 (fun y hy => hall y (by simp [hy]))
    have hrun : runTrainSubs s [p] i0 (x :: rest) =
        { state :=
            (runTrainSubs (trainStep s [p] i0 x.1 x.2.1 x.2.2).state [p]
              (i0 + 1) rest).state,
          events := (trainStep s [p] i0 x.1 x.2.1 x.2.2).events ++
            (runTrainSubs (trainStep s [p] i0 x.1 x.2.1 x.2.2).state [p]
              (i0 + 1) rest).events,
          error :=
            (runTrainSubs (trainStep s [p] i0 x.1 x.2.1 x.2.2).state [p]
              (i0 + 1) rest).error } := by
      simp only [runTrainSubs]
      rw [he]
    rw [hrun]
    refine ⟨he2, hm2, q2, hq2, ?_, ?_⟩
    · rw [cbIdxs_append, List.append_assoc, hcb2, ← List.append_assoc, hcb1,
        List.append_assoc, List.length_cons, List.range'_succ]
      rfl
    · rw [cbIdxs_append, optIdxs_append, hopt1, hopt2]

/-- The epoch-end drain of a single-partition Handler: terminates normally
with every queue empty, emitting per pending iteration — in queue order —
its blocking resolution, its optimizer step and its callback with
is_deferred=True. -/
lemma drainTrainLoop_spec (p : Partition) :
    ∀ (q : List PendingIter) (fuel : Nat) (s : HState),
    s.ppeModules = [] ∨ s.ppeModules = [p] →
    s.pendingIters = pqOf p.name q →
    q.length < fuel →
    (drainTrainLoop fuel s [p]).error = none
    ∧ (drainTrainLoop fuel s [p]).state.pendingIters = []
    ∧ (drainTrainLoop fuel s [p]).events
        = q.flatMap (drainItemEvsTrain s.clock) := by
  intro q
  induction q with
  | nil =>
    intro fuel s _ hp _
    have : s.pendingIters = [] := by simpa using hp
    cases fuel <;> simp [drainTrainLoop, this]
  | cons h0 t ih =>
    intro fuel s hm hp hfuel
    cases fuel with
    | zero => omega
    | succ f =>
      have hne : s.pendingIters.isEmpty = false := by
        rw [hp]; simp
      have hit : runtimeIterator s.ppeModules [p] = ([p], [p]) := by
        rcases hm with hm | hm <;> rw [hm] <;> simp
      have hpass : drainListTrain [p]
            { ppeModules := [p], pendingIters := s.pendingIters,
              clock := s.clock } =
          { state :=
              { ppeModules := [p], pendingIters := pqOf p.name t,
                clock := s.clock },
            events := drainItemEvsTrain s.clock h0, error := none } := by
        simp only [drainListTrain, hp, pqOf_cons, containsQ_single_self,
          lookupQ_single_self, List.head?_cons]
        simp only [completeTrainStep, lookupQ_single_self, List.head?_cons,
          List.tail_cons, setQ_single_self]
        rw [popShape]
        simp [drainItemEvsTrain]
      have hloop : drainTrainLoop (f + 1) s [p] =
          { state := (drainTrainLoop f
              { ppeModules := [p], pendingIters := pqOf p.name t,
                clock := s.clock } [p]).state,
            events := drainItemEvsTrain s.clock h0 ++ (drainTrainLoop f
              { ppeModules := [p], pendingIters := pqOf p.name t,
                clock := s.clock } [p]).events,
            error := (drainTrainLoop f
              { ppeModules := [p], pendingIters := pqOf p.name t,
                clock := s.clock } [p]).error } := by
        simp only [drainTrainLoop, hne, Bool.false_eq_true, if_false, hit]
        rw [hpass]
      obtain ⟨he2, hp2, hev2⟩ := ih f
        { ppeModules := [p], pendingIters := pqOf p.name t, clock := s.clock }
        (Or.inr rfl) rfl (by simpa using hfuel)
      rw [hloop]
      refine ⟨he2, hp2, ?_⟩
      rw [hev2]
      simp

/-- The evaluation-loop-end drain, mirroring drainTrainLoop_spec without
optimizer steps. -/
lemma drainEvalLoop_spec (p : Partition) :
    ∀ (q : List PendingIter) (fuel : Nat) (s : HState),
    s.ppeModules = [] ∨ s.ppeModules = [p] →
    s.pendingIters = pqOf p.name q →
    q.length < fuel →
    (drainEvalLoop fuel s [p]).error = none
    ∧ (drainEvalLoop fuel s [p]).state.pendingIters = []
    ∧ (drainEvalLoop fuel s [p]).events
        = q.flatMap (drainItemEvsEval s.clock) := by
  intro q
  induction q with
  | nil =>
    intro fuel s _ hp _
    have : s.pendingIters = [] := by simpa using hp
    cases fuel <;> simp [drainEvalLoop, this]
  | cons h0 t ih =>
    intro fuel s hm hp hfuel
    cases fuel with
    | zero => omega
    | succ f =>
      have hne : s.pendingIters.isEmpty = false := by
        rw [hp]; simp
      have hit : runtimeIterator s.ppeModules [p] = ([p], [p]) := by
        rcases hm with hm | hm <;> rw [hm] <;> simp
      have hpass : drainListEval [p]
            { ppeModules := [p], pendingIters := s.pendingIters,
              clock := s.clock } =
          { state :=
              { ppeModules := [p], pendingIters := pqOf p.name t,
                clock := s.clock },
            events := drainItemEvsEval s.clock h0, error := none } := by
        simp only [drainListEval, hp, pqOf_cons, containsQ_single_self,
          lookupQ_single_self, List.head?_cons]
        simp only [completeEvalStep, lookupQ_single_self, List.head?_cons,
          List.tail_cons, setQ_single_self]
        rw [popShape]
        simp [drainItemEvsEval]
      have hloop : drainEvalLoop (f + 1) s [p] =
          { state := (drainEvalLoop f
              { ppeModules := [p], pendingIters := pqOf p.name t,
                clock := s.clock } [p]).state,
            events := drainItemEvsEval s.clock h0 ++ (drainEvalLoop f
              { ppeModules := [p], pendingIters := pqOf p.name t,
                clock := s.clock } [p]).events,
            error := (drainEvalLoop f
              { ppeModules := [p], pendingIters := pqOf p.name t,
                clock := s.clock } [p]).error } := by
        simp only [drainEvalLoop, hne, Bool.false_eq_true, if_false, hit]
        rw [hpass]
      obtain ⟨he2, hp2, hev2⟩ := ih f
        { ppeModules := [p], pendingIters := pqOf p.name t, clock := s.clock }
        (Or.inr rfl) rfl (by simpa using hfuel)
      rw [hloop]
      refine ⟨he2, hp2, ?_⟩
      rw [hev2]
      simp

/-- The callback indices of a drain trace are the queue's indices. -/
lemma cbIdxs_flatMap_drainTrain (c : Nat) (q : List PendingIter) :
    cbIdxs (q.flatMap (drainItemEvsTrain c)) = q.map PendingIter.idx := by
  induction q with
  | nil => simp [cbIdxs]
  | cons h t ih =>
    simp only [List.flatMap_cons, cbIdxs_append, ih, drainItemEvsTrain]
    rw [cbIdxs_of_polls (getDeferredOutputs_polls c h true)]
    simp [cbIdxs]

/-- The optimizer-step indices of a drain trace are the queue's indices. -/
lemma optIdxs_flatMap_drainTrain (c : Nat) (q : List PendingIter) :
    optIdxs (q.flatMap (drainItemEvsTrain c)) = q.map PendingIter.idx := by
  induction q with
  | nil => simp [optIdxs]
  | cons h t ih =>
    simp only [List.flatMap_cons, optIdxs_append, ih, drainItemEvsTrain]
    rw [optIdxs_of_polls (getDeferredOutputs_polls c h true)]
    simp [optIdxs]

/-- A train drain trace calls each drained iteration back exactly once,
with is_deferred=True, in queue order. -/
lemma cbSeq_flatMap_drainTrain (c : Nat) (q : List PendingIter) :
    cbSeq (q.flatMap (drainItemEvsTrain c))
      = q.map (fun it => (it.idx, some true)) := by
  induction q with
  | nil => simp [cbSeq]
  | cons h t ih =>
    simp only [List.flatMap_cons, cbSeq_append, ih, drainItemEvsTrain]
    rw [cbSeq_of_polls (getDeferredOutputs_polls c h true)]
    simp [cbSeq]

/-- An eval drain trace calls each drained iteration back exactly once,
with is_deferred=True, in queue order. -/
lemma cbSeq_flatMap_drainEval (c : Nat) (q : List PendingIter) :
    cbSeq (q.flatMap (drainItemEvsEval c))
      = q.map (fun it => (it.idx, some true)) := by
  induction q with
  | nil => simp [cbSeq]
  | cons h t ih =>
    simp only [List.flatMap_cons, cbSeq_append, ih, drainItemEvsEval]
    rw [cbSeq_of_polls (getDeferredOutputs_polls c h true)]
    simp [cbSeq]

/-! ### The pending-queue non-emptiness invariant -/

/-- Every key present in pending_iters maps to a non-empty queue. -/
abbrev PendingInv (s : HState) : Prop := ∀ pr ∈ s.pendingIters, pr.2 ≠ []

lemma mem_setQ {m : List (String × List PendingIter)} {n : String}
    {q : List PendingIter} {pr : String × List PendingIter}
    (h : pr ∈ setQ m n q) : pr = (n, q) ∨ pr ∈ m := by
  induction m with
  | nil => simpa [setQ] using h
  | cons kv rest ih =>
    obtain ⟨k, q0⟩ := kv
    by_cases hk : k = n
    · simp only [setQ, if_pos hk] at h
      rcases List.mem_cons.mp h with h | h
      · exact Or.inl h
      · exact Or.inr (List.mem_cons_of_mem _ h)
    · simp only [setQ, if_neg hk] at h
      rcases List.mem_cons.mp h with h | h
      · exact Or.inr (by simp [h])
      · rcases ih h with h' | h'
        · exact Or.inl h'
        · exact Or.inr (List.mem_cons_of_mem _ h')

lemma mem_delQ {m : List (String × List PendingIter)} {n : String}
    {pr : String × List PendingIter}
    (h : pr ∈ delQ m n) : pr ∈ m ∧ pr.1 ≠ n := by
  induction m with
  | nil => simp [delQ] at h
  | cons kv rest ih =>
    obtain ⟨k, q0⟩ := kv
    by_cases hk : k = n
    · simp only [delQ, if_pos hk] at h
      obtain ⟨h1, h2⟩ := ih h
      exact ⟨List.mem_cons_of_mem _ h1, h2⟩
    · simp only [delQ, if_neg hk] at h
      rcases List.mem_cons.mp h with h | h
      · refine ⟨by simp [h], ?_⟩
        rw [h]
        exact hk
      · obtain ⟨h1, h2⟩ := ih h
        exact ⟨List.mem_cons_of_mem _ h1, h2⟩

/-- Popping a head via _complete_train_step keeps every stored queue
non-empty: the queue entry is deleted as soon as its last element goes. -/
lemma completeTrainStep_inv {s : HState} {sn : String} {touts : Option Outs}
    {block : Bool} (hinv : PendingInv s)
    (he : (completeTrainStep s sn touts block).error = none) :
    PendingInv (completeTrainStep s sn touts block).state := by
  rcases hh : (lookupQ s.pendingIters sn).head? with _ | p
  · simp only [completeTrainStep, hh] at he
    simp at he
  · simp only [completeTrainStep, hh]
    intro pr hpr
    simp only at hpr
    by_cases hq : ((lookupQ s.pendingIters sn).tail).isEmpty
    · rw [if_pos hq] at hpr
      obtain ⟨h1, h2⟩ := mem_delQ hpr
      rcases mem_setQ h1 with h' | h'
      · exact absurd (by rw [h']) h2
      · exact hinv pr h'
    · rw [if_neg hq] at hpr
      rcases mem_setQ hpr with h' | h'
      · rw [h']
        simpa using hq
      · exact hinv pr h'

/-- _complete_eval_step variant of completeTrainStep_inv. -/
lemma completeEvalStep_inv {s : HState} {sn : String} {touts : Option Outs}
    {block : Bool} (hinv : PendingInv s)
    (he : (completeEvalStep s sn touts block).error = none) :
    PendingInv (completeEvalStep s sn touts block).state := by
  rcases hh : (lookupQ s.pendingIters sn).head? with _ | p
  · simp only [completeEvalStep, hh] at he
    simp at he
  · simp only [completeEvalStep, hh]
    intro pr hpr
    simp only at hpr
    by_cases hq : ((lookupQ s.pendingIters sn).tail).isEmpty
    · rw [if_pos hq] at hpr
      obtain ⟨h1, h2⟩ := mem_delQ hpr
      rcases mem_setQ h1 with h' | h'
      · exact absurd (by rw [h']) h2
      · exact hinv pr h'
    · rw [if_neg hq] at hpr
      rcases mem_setQ hpr with h' | h'
      · rw [h']
        simpa using hq
      · exact hinv pr h'

/-- Appending is to a queue keeps every stored queue non-empty. -/
lemma append_setQ_inv {s : HState} (hinv : PendingInv s) (n : String)
    (x : PendingIter) :
    PendingInv { s with
      pendingIters := setQ s.pendingIters n (lookupQ s.pendingIters n ++ [x]) } := by
  intro pr hpr
  rcases mem_setQ hpr with h' | h'
  · rw [h']
    simp
  · exact hinv pr h'

lemma deferredLoopTrain_inv (o : Outs) (i b cb : Nat) :
    ∀ (l : List Partition) (s : HState), PendingInv s →
    (deferredLoopTrain o i b cb l s).error = none →
    PendingInv (deferredLoopTrain o i b cb l s).state := by
  intro l
  induction l with
  | nil => intro s hinv _; exact hinv
  | cons pt rest ih =>
    intro s hinv he
    have hinv1 := append_setQ_inv hinv pt.name (⟨o, i, b, cb⟩ : PendingIter)
    simp only [deferredLoopTrain] at he ⊢
    rcases hh : (lookupQ (setQ s.pendingIters pt.name (lookupQ s.pendingIters pt.name ++ [(⟨o, i, b, cb⟩ : PendingIter)])) pt.name).head? with _ | h
    · simp only [hh] at he
      exact Option.noConfusion he
    · simp only [hh] at he ⊢
      rcases hg : (getDeferredOutputs s.clock h false).1 with _ | t
      · simp only [hg] at he ⊢
        exact ih _ hinv1 he
      · simp only [hg] at he ⊢
        rcases hr : (completeTrainStep { s with pendingIters := setQ s.pendingIters pt.name (lookupQ s.pendingIters pt.name ++ [(⟨o, i, b, cb⟩ : PendingIter)]) } pt.name (some t) false).error with _ | err
        · simp only [hr] at he ⊢
          exact ih _ (completeTrainStep_inv hinv1 hr) he
        · simp only [hr] at he
          simp at he

lemma deferredLoopEval_inv (o : Outs) (i b cb : Nat) :
    ∀ (l : List Partition) (s : HState), PendingInv s →
    (deferredLoopEval o i b cb l s).error = none →
    PendingInv (deferredLoopEval o i b cb l s).state := by
  intro l
  induction l with
  | nil => intro s hinv _; exact hinv
  | cons pt rest ih =>
    intro s hinv he
    have hinv1 := append_setQ_inv hinv pt.name (⟨o, i, b, cb⟩ : PendingIter)
    simp only [deferredLoopEval] at he ⊢
    rcases hh : (lookupQ (setQ s.pendingIters pt.name (lookupQ s.pendingIters pt.name ++ [(⟨o, i, b, cb⟩ : PendingIter)])) pt.name).head? with _ | h
    · simp only [hh] at he
      exact Option.noConfusion he
    · simp only [hh] at he ⊢
      rcases hg : (getDeferredOutputs s.clock h false).1 with _ | t
      · simp only [hg] at he ⊢
        exact ih _ hinv1 he
      · simp only [hg] at he ⊢
        rcases hr : (completeEvalStep { s with pendingIters := setQ s.pendingIters pt.name (lookupQ s.pendingIters pt.name ++ [(⟨o, i, b, cb⟩ : PendingIter)]) } pt.name (some t) false).error with _ | err
        · simp only [hr] at he ⊢
          exact ih _ (completeEvalStep_inv hinv1 hr) he
        · simp only [hr] at he
          simp at he

lemma trainStep_inv {s : HState} {models : List Partition} {i b cb : Nat}
    {o : Outs} (hinv : PendingInv s)
    (he : (trainStep s models i b cb o).error = none) :
    PendingInv (trainStep s models i b cb o).state := by
  by_cases ho : areOutsDeferred o
  · by_cases hlen : (runtimeIterator s.ppeModules models).2.length = 1
    · have heq : trainStep s models i b cb o =
          deferredLoopTrain o i b cb
            (runtimeIterator (runtimeIterator s.ppeModules models).2 models).1
            { ppeModules :=
                (runtimeIterator (runtimeIterator s.ppeModules models).2 models).2,
              pendingIters := s.pendingIters, clock := s.clock + 1 } := by
        simp [trainStep, ho, hlen]
      rw [heq] at he ⊢
      exact deferredLoopTrain_inv o i b cb _ _ hinv he
    · have hne : (trainStep s models i b cb o).error
          = some HErr.concurrencyConfigurationError := by
        simp [trainStep, ho, hlen]
      rw [hne] at he
      simp at he
  · have heq : (trainStep s models i b cb o).state.pendingIters
        = s.pendingIters := by
      simp [trainStep, ho]
    intro pr hpr
    rw [heq] at hpr
    exact hinv pr hpr

lemma evalStep_inv {s : HState} {models : List Partition} {i b cb : Nat}
    {o : Outs} (hinv : PendingInv s)
    (he : (evalStep s models i b cb o).error = none) :
    PendingInv (evalStep s models i b cb o).state := by
  by_cases ho : areOutsDeferred o
  · by_cases hlen : (runtimeIterator s.ppeModules models).2.length = 1
    · have heq : evalStep s models i b cb o =
          deferredLoopEval o i b cb
            (runtimeIterator (runtimeIterator s.ppeModules models).2 models).1
            { ppeModules :=
                (runtimeIterator (runtimeIterator s.ppeModules models).2 models).2,
              pendingIters := s.pendingIters, clock := s.clock + 1 } := by
        simp [evalStep, ho, hlen]
      rw [heq] at he ⊢
      exact deferredLoopEval_inv o i b cb _ _ hinv he
    · have hne : (evalStep s models i b cb o).error
          = some HErr.concurrencyConfigurationError := by
        simp [evalStep, ho, hlen]
      rw [hne] at he
      simp at he
  · have heq : (evalStep s models i b cb o).state.pendingIters
        = s.pendingIters := by
      simp [evalStep, ho]
    intro pr hpr
    rw [heq] at hpr
    exact hinv pr hpr

lemma drainListTrain_inv :
    ∀ (l : List Partition) (s : HState), PendingInv s →
    (drainListTrain l s).error = none →
    PendingInv (drainListTrain l s).state := by
  intro l
  induction l with
  | nil => intro s hinv _; exact hinv
  | cons pt rest ih =>
    intro s hinv he
    simp only [drainListTrain] at he ⊢
    by_cases hc : containsQ s.pendingIters pt.name
    · rw [if_pos hc] at he ⊢
      rcases hh : (lookupQ s.pendingIters pt.name).head? with _ | h
      · simp only [hh] at he
        exact Option.noConfusion he
      · simp only [hh] at he ⊢
        rcases hr : (completeTrainStep s pt.name
            (getDeferredOutputs s.clock h true).1 true).error with _ | err
        · simp only [hr] at he ⊢
          exact ih _ (completeTrainStep_inv hinv hr) he
        · simp only [hr] at he
          exact Option.noConfusion he
    · rw [if_neg hc] at he
      simp at he

lemma drainListEval_inv :
    ∀ (l : List Partition) (s : HState), PendingInv s →
    (drainListEval l s).error = none →
    PendingInv (drainListEval l s).state := by
  intro l
  induction l with
  | nil => intro s hinv _; exact hinv
  | cons pt rest ih =>
    intro s hinv he
    simp only [drainListEval] at he ⊢
    by_cases hc : containsQ s.pendingIters pt.name
    · rw [if_pos hc] at he ⊢
      rcases hh : (lookupQ s.pendingIters pt.name).head? with _ | h
      · simp only [hh] at he
        exact Option.noConfusion he
      · simp only [hh] at he ⊢
        rcases hr : (completeEvalStep s pt.name
            (getDeferredOutputs s.clock h true).1 true).error with _ | err
        · simp only [hr] at he ⊢
          exact ih _ (completeEvalStep_inv hinv hr) he
        · simp only [hr] at he
          exact Option.noConfusion he
    · rw [if_neg hc] at he
      simp at he

lemma drainTrainLoop_inv :
    ∀ (fuel : Nat) (s : HState) (models : List Partition), PendingInv s →
    (drainTrainLoop fuel s models).error = none →
    PendingInv (drainTrainLoop fuel s models).state := by
  intro fuel
  induction fuel with
  | zero =>
    intro s models hinv he
    simp only [drainTrainLoop] at he ⊢
    by_cases hp : s.pendingIters.isEmpty
    · rw [if_pos hp] at he ⊢
      exact hinv
    · rw [if_neg hp] at he
      simp at he
  | succ f ih =>
    intro s models hinv he
    simp only [drainTrainLoop] at he ⊢
    by_cases hp : s.pendingIters.isEmpty
    · rw [if_pos hp] at he ⊢
      exact hinv
    · rw [if_neg hp] at he ⊢
      have hinv1 : PendingInv { s with
          ppeModules := (runtimeIterator s.ppeModules models).2 } := hinv
      rcases hr : (drainListTrain (runtimeIterator s.ppeModules models).1
          { s with ppeModules := (runtimeIterator s.ppeModules models).2 }).error
        with _ | err
      · simp only [hr] at he ⊢
        exact ih _ _ (drainListTrain_inv _ _ hinv1 hr) he
      · simp only [hr] at he
        exact Option.noConfusion he

lemma drainEvalLoop_inv :
    ∀ (fuel : Nat) (s : HState) (models : List Partition), PendingInv s →
    (drainEvalLoop fuel s models).error = none →
    PendingInv (drainEvalLoop fuel s models).state := by
  intro fuel
  induction fuel with
  | zero =>
    intro s models hinv he
    simp only [drainEvalLoop] at he ⊢
    by_cases hp : s.pendingIters.isEmpty
    · rw [if_pos hp] at he ⊢
      exact hinv
    · rw [if_neg hp] at he
      simp at he
  | succ f ih =>
    intro s models hinv he
    simp only [drainEvalLoop] at he ⊢
    by_cases hp : s.pendingIters.isEmpty
    · rw [if_pos hp] at he ⊢
      exact hinv
    · rw [if_neg hp] at he ⊢
      have hinv1 : PendingInv { s with
          ppeModules := (runtimeIterator s.ppeModules models).2 } := hinv
      rcases hr : (drainListEval (runtimeIterator s.ppeModules models).1
          { s with ppeModules := (runtimeIterator s.ppeModules models).2 }).error
        with _ | err
      · simp only [hr] at he ⊢
        exact ih _ _ (drainListEval_inv _ _ hinv1 hr) he
      · simp only [hr] at he
        exact Option.noConfusion he

/-- Setup never touches the pending queues. -/
lemma setupH_pending (s : HState) (models : List Partition) (loader : LoaderArg)
    (optimizers : List (String × Nat)) :
    (setupH s models loader optimizers).state.pendingIters = s.pendingIters := by
  cases loader <;> simp only [setupH] <;> split <;> rfl

/-- train_setup never touches the pending queues. -/
lemma trainSetup_pending (s : HState) (models : List Partition)
    (loader : LoaderArg) (optimizers : List (String × Nat)) :
    (trainSetup s models loader optimizers).state.pendingIters
      = s.pendingIters :=
  setupH_pending s models loader optimizers

/-- eval_setup never touches the pending queues. -/
lemma evalSetup_pending (s : HState) (models : List Partition)
    (loader : LoaderArg) :
    (evalSetup s models loader).state.pendingIters = s.pendingIters :=
  setupH_pending s models loader []

/-! ### Further helper lemmas for the claims -/

lemma totalPending_eq {s : HState} {n : String} {q : List PendingIter}
    (h : s.pendingIters = pqOf n q) : totalPending s = q.length := by
  cases q with
  | nil => simp [totalPending, h]
  | cons a t => simp [totalPending, h]

lemma completeTrainStep_no_wait (s : HState) (sn : String) (touts : Option Outs)
    (block : Bool) :
    waitCount (completeTrainStep s sn touts block).events = 0 := by
  rcases hh : (lookupQ s.pendingIters sn).head? with _ | p <;>
    simp [completeTrainStep, hh, waitCount, List.countP_cons]

lemma completeEvalStep_no_wait (s : HState) (sn : String) (touts : Option Outs)
    (block : Bool) :
    waitCount (completeEvalStep s sn touts block).events = 0 := by
  rcases hh : (lookupQ s.pendingIters sn).head? with _ | p <;>
    simp [completeEvalStep, hh, waitCount, List.countP_cons]

lemma deferredLoopTrain_no_wait (o : Outs) (i b cb : Nat) :
    ∀ (l : List Partition) (s : HState),
    waitCount (deferredLoopTrain o i b cb l s).events = 0 := by
  intro l
  induction l with
  | nil => intro s; simp [deferredLoopTrain, waitCount]
  | cons pt rest ih =>
    intro s
    simp only [deferredLoopTrain]
    rcases hh : (lookupQ (setQ s.pendingIters pt.name (lookupQ s.pendingIters pt.name ++ [(⟨o, i, b, cb⟩ : PendingIter)])) pt.name).head? with _ | h
    · simp [waitCount]
    · rcases hg : (getDeferredOutputs s.clock h false).1 with _ | t
      · simp only [hg]
        simp [getDeferredOutputs_no_wait, ih]
      · simp only [hg]
        rcases hr : (completeTrainStep { s with pendingIters := setQ s.pendingIters pt.name (lookupQ s.pendingIters pt.name ++ [(⟨o, i, b, cb⟩ : PendingIter)]) } pt.name (some t) false).error with _ | err
        · simp [getDeferredOutputs_no_wait, completeTrainStep_no_wait, ih, hr]
        · simp [getDeferredOutputs_no_wait, completeTrainStep_no_wait, hr]

lemma deferredLoopEval_no_wait (o : Outs) (i b cb : Nat) :
    ∀ (l : List Partition) (s : HState),
    waitCount (deferredLoopEval o i b cb l s).events = 0 := by
  intro l
  induction l with
  | nil => intro s; simp [deferredLoopEval, waitCount]
  | cons pt rest ih =>
    intro s
    simp only [deferredLoopEval]
    rcases hh : (lookupQ (setQ s.pendingIters pt.name (lookupQ s.pendingIters pt.name ++ [(⟨o, i, b, cb⟩ : PendingIter)])) pt.name).head? with _ | h
    · simp [waitCount]
    · rcases hg : (getDeferredOutputs s.clock h false).1 with _ | t
      · simp only [hg]
        simp [getDeferredOutputs_no_wait, ih]
      · simp only [hg]
        rcases hr : (completeEvalStep { s with pendingIters := setQ s.pendingIters pt.name (lookupQ s.pendingIters pt.name ++ [(⟨o, i, b, cb⟩ : PendingIter)]) } pt.name (some t) false).error with _ | err
        · simp [getDeferredOutputs_no_wait, completeEvalStep_no_wait, ih, hr]
        · simp [getDeferredOutputs_no_wait, completeEvalStep_no_wait, hr]

/-- A non-blocking dict resolution aborts with none as soon as any
DeferredResult entry is not yet done. -/
lemma resolveDict_notReady (c : Nat) :
    ∀ es : List (String × OutElem),
    (∃ x ∈ es, (match x.2 with
      | OutElem.defr d => decide (c < d.readyAt)
      | _ => false) = true) →
    (resolveDict c false es).1 = none := by
  intro es
  induction es with
  | nil => simp
  | cons kv rest ih =>
    intro hx
    obtain ⟨x, hxmem, hxp⟩ := hx
    obtain ⟨k, e⟩ := kv
    rcases List.mem_cons.mp hxmem with hx0 | hx0
    · rw [hx0] at hxp
      cases e with
      | plain v => simp at hxp
      | defr d =>
        simp only at hxp
        have hd : ¬ d.readyAt ≤ c := by
          have := of_decide_eq_true hxp
          omega
        simp [resolveDict, hd]
    · cases e with
      | plain v =>
        have := ih ⟨x, hx0, hxp⟩
        simp [resolveDict, this]
      | defr d =>
        by_cases hd : d.readyAt ≤ c
        · have := ih ⟨x, hx0, hxp⟩
          simp [resolveDict, hd, this]
        · simp [resolveDict, hd]

/-- A non-blocking resolution of a bare-DeferredResult output performs
exactly one done() poll, whether or not the result is ready. -/
lemma doneCount_getDeferredOutputs_single (c : Nat) (p : PendingIter)
    (d : DRes) (hd : p.deferred = Outs.single d) :
    doneCount (getDeferredOutputs c p false).2 = 1 := by
  by_cases hdc : d.readyAt ≤ c
  · simp [getDeferredOutputs, hd, hdc, doneCount, List.countP_cons]
  · simp [getDeferredOutputs, hd, hdc, doneCount, List.countP_cons]

/-- Projecting the (name, optimizer) pairs out of a list of
initialize_module events. -/
lemma initOptims_map (l : List Partition) (f g : Partition → Option Nat) :
    initOptims (l.map (fun pt =>
      Event.initModule pt.name pt.module pt.runtime (f pt) (g pt)))
    = l.map (fun pt => (pt.name, g pt)) := by
  induction l with
  | nil => simp [initOptims]
  | cons pt rest ih => simp [initOptims, List.filterMap_cons] at ih ⊢; exact ih

/-! ### Concrete inputs shared by the witnesses -/

/-- The partition of the single-partition scenarios. -/
def pM : Partition := ⟨"m", 0, 0⟩

/-- A second partition for multi-partition scenarios. -/
def pN : Partition := ⟨"n", 1, 1⟩

/-- A deferred output that resolves immediately. -/
def oFast : Outs := Outs.single ⟨0, 22⟩

/-- A deferred output that is not done before clock 5: its submission stays
pending through a two-step run and is only drained at epoch end. -/
def oSlow : Outs := Outs.single ⟨5, 11⟩

/-- Two async submissions where the second completes before the first. -/
def subs1 : List Submission := [(10, 0, oSlow), (20, 0, oFast)]

/-- A mid-run single-partition state with two pending iterations, the head
not yet resolved, the second already resolved. -/
def qEx : List PendingIter :=
  [mkIter (Outs.single ⟨9, 4⟩) 0 0 0, mkIter (Outs.single ⟨0, 5⟩) 1 0 0]

/-- The state holding qEx. -/
def sEx3 : HState := { ppeModules := [pM], pendingIters := [("m", qEx)], clock := 2 }

/-- A fresh single-partition state. -/
def sW : HState := { ppeModules := [pM], pendingIters := [], clock := 0 }

/-- A two-partition state. -/
def sW2 : HState := { ppeModules := [pM, pN], pendingIters := [], clock := 0 }

/-- A dict output with a plain entry and a not-yet-done deferred entry. -/
def esMix : List (String × OutElem) := [("a", OutElem.plain 3), ("b", OutElem.defr ⟨7, 1⟩)]

/-! ### The claims -/

/-- C1: for every sequence of N deferred steps submitted via train_step to
a Handler with a single registered partition (batch indices 0,...,N-1), for
every pattern of done()/wait() completion of their DeferredResults — the
readyAt schedules are arbitrary, so completion may happen in any order
different from submission — the full run (submissions followed by the
epoch-end drain) raises nothing, complete_fn is invoked exactly N times with
batch indices in strictly increasing submission order 0,...,N-1, and the
train_step_optimizers calls carry indices in that same submission order. -/
theorem claim1_ordering (p : Partition) (subs : List Submission)
    (hall : ∀ x ∈ subs, areOutsDeferred x.2.2 = true) :
    (fullTrainRun p subs).error = none
    ∧ cbIdxs (fullTrainRun p subs).events = List.range subs.length
    ∧ optIdxs (fullTrainRun p subs).events = List.range subs.length := by
  obtain ⟨he, hm, q', hq', hcb, hopt⟩ :=
    runTrainSubs_spec p subs initState [] 0 (Or.inl rfl) (by simp [initState]) hall
  have htp : totalPending (runTrainSubs initState [p] 0 subs).state = q'.length :=
    totalPending_eq hq'
  obtain ⟨he2, hp2, hev2⟩ :=
    drainTrainLoop_spec p q'
      (totalPending (runTrainSubs initState [p] 0 subs).state + 1)
      (runTrainSubs initState [p] 0 subs).state hm hq' (by omega)
  have hfull : fullTrainRun p subs =
      { state := (trainEpochEnd (runTrainSubs initState [p] 0 subs).state [p]).state,
        events := (runTrainSubs initState [p] 0 subs).events ++
          (trainEpochEnd (runTrainSubs initState [p] 0 subs).state [p]).events,
        error := (trainEpochEnd (runTrainSubs initState [p] 0 subs).state [p]).error } := by
    simp only [fullTrainRun, thenRun]
    rw [he]
  have hteq : trainEpochEnd (runTrainSubs initState [p] 0 subs).state [p] =
      drainTrainLoop (totalPending (runTrainSubs initState [p] 0 subs).state + 1)
        (runTrainSubs initState [p] 0 subs).state [p] := rfl
  rw [hfull, hteq]
  refine ⟨he2, ?_, ?_⟩
  · show cbIdxs (_ ++ _) = _
    rw [cbIdxs_append, hev2, cbIdxs_flatMap_drainTrain, List.range_eq_range']
    simpa using hcb
  · show optIdxs (_ ++ _) = _
    rw [optIdxs_append, hev2, optIdxs_flatMap_drainTrain, hopt,
      List.range_eq_range']
    simpa using hcb

/-- C1 witness: two async submissions where the second's result is ready
immediately but the first resolves only during the drain — callbacks and
optimizer steps still fire in submission order 0, 1. -/
theorem claim1_witness :
    (∀ x ∈ subs1, areOutsDeferred x.2.2 = true)
    ∧ ((fullTrainRun pM subs1).error = none
      ∧ cbIdxs (fullTrainRun pM subs1).events = List.range subs1.length
      ∧ optIdxs (fullTrainRun pM subs1).events = List.range subs1.length) :=
  ⟨by decide, claim1_ordering pM subs1 (by decide)⟩

/-- C2: on a Handler with more than one registered partition, a train_step
(or eval_step) whose Logic output is deferred fails with
ConcurrencyConfigurationError, emits no events, and leaves every pending
queue untouched. -/
theorem claim2_asyncRestriction (s : HState) (models : List Partition)
    (i b cb : Nat) (o : Outs)
    (hmulti : 1 < s.ppeModules.length) (ho : areOutsDeferred o = true) :
    ((trainStep s models i b cb o).error
        = some HErr.concurrencyConfigurationError
      ∧ (trainStep s models i b cb o).state.pendingIters = s.pendingIters
      ∧ (trainStep s models i b cb o).events = [])
    ∧ ((evalStep s models i b cb o).error
        = some HErr.concurrencyConfigurationError
      ∧ (evalStep s models i b cb o).state.pendingIters = s.pendingIters
      ∧ (evalStep s models i b cb o).events = []) := by
  have hne : s.ppeModules.isEmpty = false := by
    cases hpm : s.ppeModules with
    | nil => rw [hpm] at hmulti; simp at hmulti
    | cons a l => simp
  have hit : runtimeIterator s.ppeModules models
      = (s.ppeModules, s.ppeModules) := by
    simp [runtimeIterator, hne]
  have hlen : s.ppeModules.length ≠ 1 := by omega
  refine ⟨⟨?_, ?_, ?_⟩, ⟨?_, ?_, ?_⟩⟩ <;>
    simp [trainStep, evalStep, hit, ho, if_pos hlen]

/-- C2 witness: two registered partitions and an immediately-resolvable
deferred output. -/
theorem claim2_witness :
    (1 < sW2.ppeModules.length ∧ areOutsDeferred oFast = true)
    ∧ (((trainStep sW2 [pM, pN] 0 0 0 oFast).error
          = some HErr.concurrencyConfigurationError
        ∧ (trainStep sW2 [pM, pN] 0 0 0 oFast).state.pendingIters
          = sW2.pendingIters
        ∧ (trainStep sW2 [pM, pN] 0 0 0 oFast).events = [])
      ∧ ((evalStep sW2 [pM, pN] 0 0 0 oFast).error
          = some HErr.concurrencyConfigurationError
        ∧ (evalStep sW2 [pM, pN] 0 0 0 oFast).state.pendingIters
          = sW2.pendingIters
        ∧ (evalStep sW2 [pM, pN] 0 0 0 oFast).events = [])) :=
  ⟨⟨by decide, by decide⟩,
    claim2_asyncRestriction sW2 [pM, pN] 0 0 0 oFast (by decide) (by decide)⟩

/-- C3: after train_epoch_end (and likewise eval_loop_end) returns on a
single-partition Handler, the pending map is empty and the emitted trace is
exactly, per previously-pending iteration in queue order: its blocking
(wait=True) resolution events, (in the training path) its optimizer step,
and its callback invoked exactly once with is_deferred=True. -/
theorem claim3_drainCompleteness :
    (∀ (p : Partition) (s : HState) (q : List PendingIter),
      s.ppeModules = [] ∨ s.ppeModules = [p] →
      s.pendingIters = pqOf p.name q →
      (trainEpochEnd s [p]).error = none
      ∧ (trainEpochEnd s [p]).state.pendingIters = []
      ∧ (trainEpochEnd s [p]).events = q.flatMap (drainItemEvsTrain s.clock)
      ∧ cbSeq (trainEpochEnd s [p]).events
          = q.map (fun it => (it.idx, some true)))
    ∧ (∀ (p : Partition) (s : HState) (q : List PendingIter),
      s.ppeModules = [] ∨ s.ppeModules = [p] →
      s.pendingIters = pqOf p.name q →
      (evalLoopEnd s [p]).error = none
      ∧ (evalLoopEnd s [p]).state.pendingIters = []
      ∧ (evalLoopEnd s [p]).events = q.flatMap (drainItemEvsEval s.clock)
      ∧ cbSeq (evalLoopEnd s [p]).events
          = q.map (fun it => (it.idx, some true))) := by
  constructor
  · intro p s q hm hp
    have htp : totalPending s = q.length := totalPending_eq hp
    obtain ⟨he, hps, hev⟩ :=
      drainTrainLoop_spec p q (totalPending s + 1) s hm hp (by omega)
    refine ⟨he, hps, hev, ?_⟩
    rw [show (trainEpochEnd s [p]).events = q.flatMap (drainItemEvsTrain s.clock)
      from hev, cbSeq_flatMap_drainTrain]
  · intro p s q hm hp
    have htp : totalPending s = q.length := totalPending_eq hp
    obtain ⟨he, hps, hev⟩ :=
      drainEvalLoop_spec p q (totalPending s + 1) s hm hp (by omega)
    refine ⟨he, hps, hev, ?_⟩
    rw [show (evalLoopEnd s [p]).events = q.flatMap (drainItemEvsEval s.clock)
      from hev, cbSeq_flatMap_drainEval]

/-- C3 witness: a queue of two pending iterations, the head unresolved (its
drain must wait) and the second already resolved, for both drains. -/
theorem claim3_witness :
    (sEx3.pendingIters = pqOf pM.name qEx)
    ∧ ((trainEpochEnd sEx3 [pM]).error = none
      ∧ (trainEpochEnd sEx3 [pM]).state.pendingIters = []
      ∧ cbSeq (trainEpochEnd sEx3 [pM]).events
          = qEx.map (fun it => (it.idx, some true)))
    ∧ ((evalLoopEnd sEx3 [pM]).error = none
      ∧ (evalLoopEnd sEx3 [pM]).state.pendingIters = []
      ∧ cbSeq (evalLoopEnd sEx3 [pM]).events
          = qEx.map (fun it => (it.idx, some true))) := by
  have h1 := (claim3_drainCompleteness.1 pM sEx3 qEx (Or.inr rfl) (by decide))
  have h2 := (claim3_drainCompleteness.2 pM sEx3 qEx (Or.inr rfl) (by decide))
  exact ⟨by decide, ⟨h1.1, h1.2.1, h1.2.2.2⟩, ⟨h2.1, h2.2.1, h2.2.2.2⟩⟩

/-- C4 counterexample to "each call performs at most one non-blocking
done() check": a single train_step whose output dict holds two already-done
DeferredResults performs two done() checks in that one call (one per
deferred entry of the queue head it resolves). -/
theorem claim4_counterexample :
    ¬ doneCount (trainStep sW [pM] 0 0 0
        (Outs.odict [("a", OutElem.defr ⟨0, 1⟩), ("b", OutElem.defr ⟨0, 2⟩)])).events
      ≤ 1 := by decide

/-- C4 as amended: train_step and eval_step never invoke wait() (they never
block); the done() polls of a call all come from the single non-blocking
resolution of the queue head, at most one per deferred component of the
head's output (rather than at most one per call) — exactly one when the
head is a bare DeferredResult; and when the head does not resolve, the
call leaves the head untouched (the queue is only extended by the new
iteration).  All three parts hold for both steps. -/
theorem claim4_amended :
    (∀ (s : HState) (models : List Partition) (i b cb : Nat) (o : Outs),
      waitCount (trainStep s models i b cb o).events = 0
      ∧ waitCount (evalStep s models i b cb o).events = 0)
    ∧ (∀ (p : Partition) (s : HState) (q : List PendingIter) (i b cb : Nat)
        (o : Outs) (h : PendingIter),
      s.ppeModules = [] ∨ s.ppeModules = [p] →
      s.pendingIters = pqOf p.name q →
      areOutsDeferred o = true →
      (q ++ [mkIter o i b cb]).head? = some h →
      (doneCount (trainStep s [p] i b cb o).events ≤ defCountOuts h.deferred
        ∧ doneCount (evalStep s [p] i b cb o).events ≤ defCountOuts h.deferred)
      ∧ (∀ d : DRes, h.deferred = Outs.single d →
          doneCount (trainStep s [p] i b cb o).events = 1
          ∧ doneCount (evalStep s [p] i b cb o).events = 1)
      ∧ ((getDeferredOutputs (s.clock + 1) h false).1 = none →
          (trainStep s [p] i b cb o).state.pendingIters
            = [(p.name, q ++ [mkIter o i b cb])]
          ∧ (evalStep s [p] i b cb o).state.pendingIters
            = [(p.name, q ++ [mkIter o i b cb])])) := by
  constructor
  · intro s models i b cb o
    constructor
    · by_cases ho : areOutsDeferred o
      · by_cases hlen : (runtimeIterator s.ppeModules models).2.length = 1
        · have heq : trainStep s models i b cb o =
              deferredLoopTrain o i b cb
                (runtimeIterator (runtimeIterator s.ppeModules models).2 models).1
                { ppeModules :=
                    (runtimeIterator (runtimeIterator s.ppeModules models).2 models).2,
                  pendingIters := s.pendingIters, clock := s.clock + 1 } := by
            simp [trainStep, ho, hlen]
          rw [heq]
          exact deferredLoopTrain_no_wait o i b cb _ _
        · have heq : (trainStep s models i b cb o).events = [] := by
            simp [trainStep, ho, hlen]
          rw [heq]
          simp [waitCount]
      · have heq : (trainStep s models i b cb o).events
            = [Event.optStep i, Event.callback cb i (some o) none] := by
          simp [trainStep, ho]
        rw [heq]
        simp [waitCount, List.countP_cons]
    · by_cases ho : areOutsDeferred o
      · by_cases hlen : (runtimeIterator s.ppeModules models).2.length = 1
        · have heq : evalStep s models i b cb o =
              deferredLoopEval o i b cb
                (runtimeIterator (runtimeIterator s.ppeModules models).2 models).1
                { ppeModules :=
                    (runtimeIterator (runtimeIterator s.ppeModules models).2 models).2,
                  pendingIters := s.pendingIters, clock := s.clock + 1 } := by
            simp [evalStep, ho, hlen]
          rw [heq]
          exact deferredLoopEval_no_wait o i b cb _ _
        · have heq : (evalStep s models i b cb o).events = [] := by
            simp [evalStep, ho, hlen]
          rw [heq]
          simp [waitCount]
      · have heq : (evalStep s models i b cb o).events
            = [Event.callback cb i (some o) none] := by
          simp [evalStep, ho]
        rw [heq]
        simp [waitCount, List.countP_cons]
  · intro p s q i b cb o h hm hp ho hh
    have hdct : doneCount (trainStep s [p] i b cb o).events
        = doneCount (getDeferredOutputs (s.clock + 1) h false).2 := by
      rw [trainStep_deferred_eq p s i b cb o hm ho]
      rcases hg : (getDeferredOutputs (s.clock + 1) h false).1 with _ | t
      · rw [deferredLoopTrain_single_notReady p { ppeModules := [p], pendingIters := s.pendingIters, clock := s.clock + 1 } q o i b cb h hp hh hg]
      · rw [deferredLoopTrain_single_ready p { ppeModules := [p], pendingIters := s.pendingIters, clock := s.clock + 1 } q o i b cb h t hp hh hg]
        show doneCount ((getDeferredOutputs (s.clock + 1) h false).2 ++ _) = _
        rw [doneCount_append]
        have h2 : doneCount [Event.optStep h.idx,
            Event.callback h.cbackId h.idx (some t) (some false)] = 0 := by
          simp [doneCount, List.countP_cons]
        omega
    have hdce : doneCount (evalStep s [p] i b cb o).events
        = doneCount (getDeferredOutputs (s.clock + 1) h false).2 := by
      rw [evalStep_deferred_eq p s i b cb o hm ho]
      rcases hg : (getDeferredOutputs (s.clock + 1) h false).1 with _ | t
      · rw [deferredLoopEval_single_notReady p { ppeModules := [p], pendingIters := s.pendingIters, clock := s.clock + 1 } q o i b cb h hp hh hg]
      · rw [deferredLoopEval_single_ready p { ppeModules := [p], pendingIters := s.pendingIters, clock := s.clock + 1 } q o i b cb h t hp hh hg]
        show doneCount ((getDeferredOutputs (s.clock + 1) h false).2 ++ _) = _
        rw [doneCount_append]
        have h2 : doneCount
            [Event.callback h.cbackId h.idx (some t) (some false)] = 0 := by
          simp [doneCount, List.countP_cons]
        omega
    refine ⟨⟨?_, ?_⟩, ?_, ?_⟩
    · rw [hdct]
      exact doneCount_getDeferredOutputs_le (s.clock + 1) h false
    · rw [hdce]
      exact doneCount_getDeferredOutputs_le (s.clock + 1) h false
    · intro d hd
      constructor
      · rw [hdct]
        exact doneCount_getDeferredOutputs_single (s.clock + 1) h d hd
      · rw [hdce]
        exact doneCount_getDeferredOutputs_single (s.clock + 1) h d hd
    · intro hg
      constructor
      · rw [trainStep_deferred_eq p s i b cb o hm ho,
          deferredLoopTrain_single_notReady p { ppeModules := [p], pendingIters := s.pendingIters, clock := s.clock + 1 } q o i b cb h hp hh hg]
      · rw [evalStep_deferred_eq p s i b cb o hm ho,
          deferredLoopEval_single_notReady p { ppeModules := [p], pendingIters := s.pendingIters, clock := s.clock + 1 } q o i b cb h hp hh hg]

/-- C4 witness for the amended claim: a not-yet-done bare DeferredResult
is appended and left as the untouched queue head by train_step and
eval_step alike, with no wait() call and exactly one done() poll each. -/
theorem claim4_witness :
    (areOutsDeferred oSlow = true
      ∧ (mkIter oSlow 0 0 0).deferred = Outs.single ⟨5, 11⟩
      ∧ (getDeferredOutputs (sW.clock + 1) (mkIter oSlow 0 0 0) false).1 = none)
    ∧ waitCount (trainStep sW [pM] 0 0 0 oSlow).events = 0
    ∧ waitCount (evalStep sW [pM] 0 0 0 oSlow).events = 0
    ∧ doneCount (trainStep sW [pM] 0 0 0 oSlow).events = 1
    ∧ doneCount (evalStep sW [pM] 0 0 0 oSlow).events = 1
    ∧ (trainStep sW [pM] 0 0 0 oSlow).state.pendingIters
        = [(pM.name, [] ++ [mkIter oSlow 0 0 0])]
    ∧ (evalStep sW [pM] 0 0 0 oSlow).state.pendingIters
        = [(pM.name, [] ++ [mkIter oSlow 0 0 0])] := by
  refine ⟨⟨by decide, by decide, by decide⟩, ?_, ?_, ?_, ?_, ?_, ?_⟩
  · exact (claim4_amended.1 sW [pM] 0 0 0 oSlow).1
  · exact (claim4_amended.1 sW [pM] 0 0 0 oSlow).2
  · exact ((claim4_amended.2 pM sW [] 0 0 0 oSlow (mkIter oSlow 0 0 0)
      (Or.inr rfl) (by decide) (by decide) (by decide)).2.1
        ⟨5, 11⟩ (by decide)).1
  · exact ((claim4_amended.2 pM sW [] 0 0 0 oSlow (mkIter oSlow 0 0 0)
      (Or.inr rfl) (by decide) (by decide) (by decide)).2.1
        ⟨5, 11⟩ (by decide)).2
  · exact ((claim4_amended.2 pM sW [] 0 0 0 oSlow (mkIter oSlow 0 0 0)
      (Or.inr rfl) (by decide) (by decide) (by decide)).2.2 (by decide)).1
  · exact ((claim4_amended.2 pM sW [] 0 0 0 oSlow (mkIter oSlow 0 0 0)
      (Or.inr rfl) (by decide) (by decide) (by decide)).2.2 (by decide)).2

/-- C5: deferred-result resolution is all-or-nothing.  For a pending
iteration whose output is a dict of values and DeferredResults, a
non-blocking (wait=false) resolution with some deferred entry not done
returns "not ready" (none), discarding the partially-built result; and a
train_step whose queue-head resolution returns none performs no commit (no
optimizer step, no callback) and leaves the pending iteration at the queue
head unchanged, only the new iteration having been appended behind it. -/
theorem claim5_allOrNothing :
    (∀ (c : Nat) (es : List (String × OutElem)) (it : PendingIter),
      it.deferred = Outs.odict es →
      (∃ x ∈ es, (match x.2 with
        | OutElem.defr d => decide (c < d.readyAt)
        | _ => false) = true) →
      (getDeferredOutputs c it false).1 = none)
    ∧ (∀ (p : Partition) (s : HState) (q : List PendingIter) (i b cb : Nat)
        (o : Outs) (h : PendingIter),
      s.ppeModules = [] ∨ s.ppeModules = [p] →
      s.pendingIters = pqOf p.name q →
      areOutsDeferred o = true →
      (q ++ [mkIter o i b cb]).head? = some h →
      (getDeferredOutputs (s.clock + 1) h false).1 = none →
      (trainStep s [p] i b cb o).error = none
      ∧ cbIdxs (trainStep s [p] i b cb o).events = []
      ∧ optIdxs (trainStep s [p] i b cb o).events = []
      ∧ (trainStep s [p] i b cb o).state.pendingIters
          = [(p.name, q ++ [mkIter o i b cb])]) := by
  constructor
  · intro c es it hd hx
    simp only [getDeferredOutputs, hd]
    rw [resolveDict_notReady c es hx]
    rfl
  · intro p s q i b cb o h hm hp ho hh hg
    rw [trainStep_deferred_eq p s i b cb o hm ho]
    rw [deferredLoopTrain_single_notReady p { ppeModules := [p], pendingIters := s.pendingIters, clock := s.clock + 1 } q o i b cb h hp hh hg]
    refine ⟨rfl, ?_, ?_, rfl⟩
    · exact cbIdxs_of_polls (getDeferredOutputs_polls (s.clock + 1) h false)
    · exact optIdxs_of_polls (getDeferredOutputs_polls (s.clock + 1) h false)

/-- C5 witness: a dict with a ready plain entry and a not-done deferred
entry resolves to none, and the train_step that polls it commits nothing
and leaves the queue head untouched. -/
theorem claim5_witness :
    ((mkIter (Outs.odict esMix) 0 0 0).deferred = Outs.odict esMix
      ∧ (getDeferredOutputs 1 (mkIter (Outs.odict esMix) 0 0 0) false).1 = none)
    ∧ ((trainStep sW [pM] 0 0 0 (Outs.odict esMix)).error = none
      ∧ cbIdxs (trainStep sW [pM] 0 0 0 (Outs.odict esMix)).events = []
      ∧ optIdxs (trainStep sW [pM] 0 0 0 (Outs.odict esMix)).events = []
      ∧ (trainStep sW [pM] 0 0 0 (Outs.odict esMix)).state.pendingIters
          = [(pM.name, [] ++ [mkIter (Outs.odict esMix) 0 0 0])]) := by
  constructor
  · exact ⟨rfl, claim5_allOrNothing.1 1 esMix (mkIter (Outs.odict esMix) 0 0 0)
      rfl (by decide)⟩
  · exact claim5_allOrNothing.2 pM sW [] 0 0 0 (Outs.odict esMix)
      (mkIter (Outs.odict esMix) 0 0 0) (Or.inr rfl) (by decide) (by decide)
      (by decide) (by decide)

/-- C6: when module discovery finds zero backend-bound partitions, setup
fails with ConfigurationError — through train_setup and eval_setup alike. -/
theorem claim6_noPartitionSetup (s : HState) (loader : LoaderArg)
    (optimizers : List (String × Nat)) (hm : s.ppeModules = []) :
    (trainSetup s [] loader optimizers).error = some HErr.configurationError
    ∧ (evalSetup s [] loader).error = some HErr.configurationError := by
  constructor <;> cases loader <;>
    simp [trainSetup, evalSetup, setupH, hm, runtimeIterator]

/-- C6 witness: a fresh Handler, an empty model tree, both loader shapes
covered by the single-loader one. -/
theorem claim6_witness :
    (initState.ppeModules = [])
    ∧ (trainSetup initState [] (LoaderArg.singleLoader 1) []).error
        = some HErr.configurationError
    ∧ (evalSetup initState [] (LoaderArg.singleLoader 1)).error
        = some HErr.configurationError := by
  refine ⟨by decide, ?_, ?_⟩
  · exact (claim6_noPartitionSetup initState (LoaderArg.singleLoader 1) []
      (by decide)).1
  · exact (claim6_noPartitionSetup initState (LoaderArg.singleLoader 1) []
      (by decide)).2

/-- C7 counterexample to "complete_fn is invoked with is_deferred=false":
in a synchronous train_step the code calls complete_fn(batch_idx, outs)
without the is_deferred keyword (the callback event carries none, not
some false), so not every callback invocation of the call carries an
explicit is_deferred=false. -/
theorem claim7_counterexample :
    ¬ ((trainStep sW [pM] 0 7 3 (Outs.value 5)).events.all (fun e =>
      match e with
      | Event.callback _ _ _ d => d == some false
      | _ => true)) = true := by decide

/-- C7 as amended: a synchronous train_step (no DeferredResult in the
outputs) raises nothing, mutates no pending queue, and commits immediately
in this order — first the Logic.train_step_optimizers call for that batch
index, then the complete_fn invocation — where complete_fn receives only
(batch_index, outputs): the is_deferred keyword is omitted (isDef = none),
unlike the deferred commit paths which pass it explicitly. -/
theorem claim7_amended (s : HState) (models : List Partition)
    (i b cb : Nat) (o : Outs) (ho : areOutsDeferred o = false) :
    trainStep s models i b cb o =
      { state :=
          { ppeModules := (runtimeIterator s.ppeModules models).2,
            pendingIters := s.pendingIters, clock := s.clock + 1 },
        events := [Event.optStep i, Event.callback cb i (some o) none],
        error := none } := by
  simp [trainStep, ho]

/-- C7 witness: a synchronous step with a plain output value. -/
theorem claim7_witness :
    (areOutsDeferred (Outs.value 5) = false)
    ∧ trainStep sW [pM] 0 7 3 (Outs.value 5) =
      { state :=
          { ppeModules := (runtimeIterator sW.ppeModules [pM]).2,
            pendingIters := sW.pendingIters, clock := sW.clock + 1 },
        events := [Event.optStep 0, Event.callback 3 0 (some (Outs.value 5)) none],
        error := none } :=
  ⟨by decide, claim7_amended sW [pM] 0 7 3 (Outs.value 5) (by decide)⟩

/-- C8 counterexample to "every subsequent invocation of the discovery
iterator yields exactly the same cached list": when the first traversal
discovers zero partitions, nothing is cached, and a later invocation
re-traverses the (mutated) models and yields a different list. -/
theorem claim8_counterexample :
    ¬ (runtimeIterator (runtimeIterator [] ([] : List Partition)).2 [pM]).1
      = (runtimeIterator ([] : List Partition) ([] : List Partition)).1 := by
  decide

/-- C8 as amended: module discovery is memoized once the first traversal
finds at least one partition — the first invocation on a non-empty model
tree yields and caches the discovered list, and every subsequent invocation
yields exactly that cached list, unchanged even if the underlying models
are mutated between calls; only a first traversal that found nothing is
retried. -/
theorem claim8_amended (models1 models2 : List Partition) (h1 : models1 ≠ []) :
    (runtimeIterator [] models1).1 = models1
    ∧ (runtimeIterator (runtimeIterator [] models1).2 models2).1
        = (runtimeIterator [] models1).1
    ∧ (runtimeIterator (runtimeIterator [] models1).2 models2).2
        = (runtimeIterator [] models1).2 := by
  refine ⟨by simp, ?_, ?_⟩ <;>
    simp [runtimeIterator, List.isEmpty_iff, h1]

/-- C8 witness: one discovered partition, then mutated models. -/
theorem claim8_witness :
    ([pM] ≠ ([] : List Partition))
    ∧ ((runtimeIterator [] [pM]).1 = [pM]
      ∧ (runtimeIterator (runtimeIterator [] [pM]).2 [pM, pN]).1
          = (runtimeIterator [] [pM]).1
      ∧ (runtimeIterator (runtimeIterator [] [pM]).2 [pM, pN]).2
          = (runtimeIterator [] [pM]).2) :=
  ⟨by decide, claim8_amended [pM] [pM, pN] (by decide)⟩

/-- C9: the optimizer bound to each discovered partition at setup is the
one the spec prescribes — the optimizer whose key equals the partition name
if present, otherwise the sole optimizer when exactly one exists overall,
otherwise none — and _setup issues exactly one initialize_module call per
discovered partition, in discovery order, with that resolved optimizer. -/
theorem claim9_optimizerResolution :
    (∀ (optimizers : List (String × Nat)) (sn : String),
      resolveOptim optimizers sn = specResolveOptim optimizers sn)
    ∧ (∀ (s : HState) (models : List Partition) (loader : LoaderArg)
        (optimizers : List (String × Nat)),
      initOptims (setupH s models loader optimizers).events
        = (runtimeIterator s.ppeModules models).1.map
            (fun pt => (pt.name, specResolveOptim optimizers pt.name))) := by
  have hres : ∀ (optimizers : List (String × Nat)) (sn : String),
      resolveOptim optimizers sn = specResolveOptim optimizers sn := by
    intro opts sn
    rcases hf : opts.find? (fun kv => kv.1 = sn) with _ | kv
    · match opts with
      | [] => simp [resolveOptim, specResolveOptim, lookupA, hf]
      | [x] => simp [resolveOptim, specResolveOptim, lookupA, hf]
      | x :: y :: t => simp [resolveOptim, specResolveOptim, lookupA, hf]
    · simp [resolveOptim, specResolveOptim, lookupA, hf]
  refine ⟨hres, ?_⟩
  intro s models loader opts
  cases loader with
  | singleLoader l =>
    have hev : (setupH s models (LoaderArg.singleLoader l) opts).events
        = (runtimeIterator s.ppeModules models).1.map (fun pt =>
            Event.initModule pt.name pt.module pt.runtime
              (lookupA ((runtimeIterator s.ppeModules models).1.map
                (fun pt2 => (pt2.name, l))) pt.name)
              (resolveOptim opts pt.name)) := by
      simp only [setupH, runtimeIterator_stable]
      split <;> rfl
    rw [hev, initOptims_map]
    simp [hres]
  | perModule m =>
    have hev : (setupH s models (LoaderArg.perModule m) opts).events
        = (runtimeIterator s.ppeModules models).1.map (fun pt =>
            Event.initModule pt.name pt.module pt.runtime (lookupA m pt.name)
              (resolveOptim opts pt.name)) := by
      simp only [setupH]
      split <;> rfl
    rw [hev, initOptims_map]
    simp [hres]

/-- C10: after every public Handler operation that returns normally, every
key present in the pending-iterations map refers to a non-empty queue — a
partition's queue entry is created only when an iteration is appended and
deleted as soon as its last iteration is popped.  Reach enumerates the
states produced by the public operations from a fresh Handler. -/
theorem claim10_pendingInvariant :
    ∀ s : HState, Reach s → ∀ pr ∈ s.pendingIters, pr.2 ≠ [] := by
  intro s hs
  induction hs with
  | init => simp [initState]
  | setupStep h he ih =>
    intro pr hpr
    rw [trainSetup_pending] at hpr
    exact ih pr hpr
  | evalSetupStep h he ih =>
    intro pr hpr
    rw [evalSetup_pending] at hpr
    exact ih pr hpr
  | hookStep h he ih =>
    intro pr hpr
    exact ih pr hpr
  | trainStepStep h he ih => exact trainStep_inv ih he
  | evalStepStep h he ih => exact evalStep_inv ih he
  | epochEndStep h he ih => exact drainTrainLoop_inv _ _ _ ih he
  | evalLoopEndStep h he ih => exact drainEvalLoop_inv _ _ _ ih he

/-- C10 witness: the state after one unresolved async train_step is
reachable and its only queue is non-empty. -/
theorem claim10_witness : ([mkIter oSlow 0 0 0] : List PendingIter) ≠ [] :=
  claim10_pendingInvariant (trainStep initState [pM] 0 0 0 oSlow).state
    (Reach.trainStepStep Reach.init (by decide))
    ("m", [mkIter oSlow 0 0 0]) (by decide)

end PpeHandler
